import Mathlib

/-!
Verification of the columnar scan operators and ingestion routines of the
`nemo` repository against its specification.  The ordered merge join
(`src/physical/columns/ordered_merge_join.rs`), the equality column scan
(`nemo-physical/src/columnar/operations/columnscan_equal_column.rs`), the prune
column scan (`columnscan_prune.rs`), the CSV reader (`src/io/csv.rs`) and the
RDF triples reader (`nemo/src/io/formats/rdf_triples.rs`) are embedded
shallowly; components that the sources only declare (the generic column scan,
the datatype parsers, the string dictionary, the RDF parser and the logical
column builders) are modelled from the specification, as indicated by their
doc comments.
-/

namespace NemoVerify

/-- Outcome of an embedded operation: `fatal` models a Rust panic (index out of
bounds, `unwrap` on `None`, `unimplemented`), `more` models exhausting the fuel
of a loop, and `ok` is a normal return. -/
inductive Res (α : Type) where
  | fatal : Res α
  | more : Res α
  | ok (a : α) : Res α
deriving Repr, DecidableEq

/-- Modelled from the spec: `GenericColumnScan`, the storage-backed column scan
(declared in `physical/columns.rs`; its module is not among the sources).  A
cursor over the column's data: `idx = none` is the fresh, before-first state;
`idx = some i` with `i` below the length is positioned at element `i`; an index
at or beyond the length is the exhausted state, whose `current` is `none`. -/
structure GenericColumnScan where
  data : List Int
  idx : Option Nat
deriving Repr, DecidableEq

namespace GenericColumnScan

/-- The index the next `seek` searches from: a fresh scan searches from the
start, a positioned scan from its current element (seeks are monotone). -/
def start (c : GenericColumnScan) : Nat :=
  match c.idx with
  | none => 0
  | some i => i

/-- Modelled from the spec: `current` is the value of the most recent
successful `next`/`seek`, `none` before the first call and after exhaustion. -/
def current (c : GenericColumnScan) : Option Int :=
  match c.idx with
  | none => none
  | some i => c.data.get? i

/-- Modelled from the spec: `next` advances to the next value in ascending
order (the first value on a fresh scan); the new `current` is its result. -/
def next (c : GenericColumnScan) : GenericColumnScan :=
  { c with idx := some (match c.idx with | none => 0 | some i => i + 1) }

/-- Modelled from the spec: `seek target` positions the scan at the first value
greater or equal to `target` at or after the current position; the new
`current` is its result (`none` when no such value exists). -/
def seek (c : GenericColumnScan) (t : Int) : GenericColumnScan :=
  { c with idx := some (c.start + (c.data.drop c.start).findIdx (fun v => decide (t ≤ v))) }

/-- The values the scan can still produce or reproduce: the suffix of the data
from the seek-start position on. -/
def remaining (c : GenericColumnScan) : List Int := c.data.drop c.start

/-- The scan is positioned exactly at an element holding value `v`. -/
def positionedAt (c : GenericColumnScan) (v : Int) : Prop :=
  ∃ i, c.idx = some i ∧ c.data.get? i = some v

end GenericColumnScan

section ListLemmas

variable {α : Type _}

theorem get?_findIdx (p : α → Bool) (l : List α) :
    l.get? (l.findIdx p) = l.find? p := by
  induction l with
  | nil => rfl
  | cons a l ih =>
    rw [List.findIdx_cons]
    by_cases h : p a
    · simp [h, List.find?_cons_of_pos _ h]
    · have hf : p a = false := by simpa using h
      rw [List.get?_eq_getElem?] at ih
      simp [hf, List.find?_cons_of_neg _ h, ih]

theorem drop_findIdx (p : α → Bool) (l : List α) :
    l.drop (l.findIdx p) = l.dropWhile (fun x => !p x) := by
  induction l with
  | nil => rfl
  | cons a l ih =>
    by_cases h : p a
    · simp [List.findIdx_cons, h, List.dropWhile_cons]
    · simp [List.findIdx_cons, h, List.dropWhile_cons, ih]

theorem head?_drop (l : List α) (n : Nat) : (l.drop n).head? = l.get? n := by
  induction l generalizing n with
  | nil => simp
  | cons a l ih =>
    cases n with
    | zero => simp
    | succ n => simpa using ih n

theorem mem_dropWhile_of_mem {p : α → Bool} {l : List α} {x : α}
    (hx : x ∈ l) (hpx : p x = false) : x ∈ l.dropWhile p := by
  induction l with
  | nil => cases hx
  | cons a l ih =>
    rw [List.dropWhile_cons]
    by_cases h : p a
    · simp only [h, if_true]
      rcases List.mem_cons.mp hx with rfl | hx'
      · rw [h] at hpx; cases hpx
      · exact ih hx'
    · simp only [h, if_false]
      exact hx

theorem dropWhile_dropWhile (p : α → Bool) (l : List α) :
    (l.dropWhile p).dropWhile p = l.dropWhile p := by
  induction l with
  | nil => rfl
  | cons a l ih =>
    rw [List.dropWhile_cons]
    by_cases h : p a
    · simpa [h] using ih
    · simp [List.dropWhile_cons, h]

end ListLemmas

namespace GenericColumnScan

theorem remaining_seek (c : GenericColumnScan) (t : Int) :
    (c.seek t).remaining = c.remaining.dropWhile (fun v => decide (v < t)) := by
  have hpred : (fun v : Int => decide (v < t)) = (fun v : Int => !decide (t ≤ v)) := by
    funext v
    rcases lt_or_le v t with h | h
    · simp [h, not_le.mpr h]
    · simp [not_lt.mpr h, h]
  have h1 : (c.seek t).remaining
      = c.remaining.drop (c.remaining.findIdx (fun v => decide (t ≤ v))) := by
    show c.data.drop (c.start + (c.data.drop c.start).findIdx (fun v => decide (t ≤ v))) = _
    exact (List.drop_drop _ _ _).symm
  rw [h1, drop_findIdx, hpred]

theorem current_seek (c : GenericColumnScan) (t : Int) :
    (c.seek t).current = c.remaining.find? (fun v => decide (t ≤ v)) := by
  show c.data.get? (c.start + (c.data.drop c.start).findIdx (fun v => decide (t ≤ v))) = _
  rw [← List.get?_drop]
  exact get?_findIdx _ _

theorem current_eq_head_remaining (c : GenericColumnScan) {i : Nat} (h : c.idx = some i) :
    c.current = c.remaining.head? := by
  unfold current remaining start
  rw [h, head?_drop]

theorem current_seek_eq_head (c : GenericColumnScan) (t : Int) :
    (c.seek t).current = (c.seek t).remaining.head? :=
  current_eq_head_remaining _ rfl

theorem positionedAt_seek {c : GenericColumnScan} {t v : Int}
    (h : (c.seek t).current = some v) : (c.seek t).positionedAt v :=
  ⟨_, rfl, h⟩

theorem positionedAt_next {c : GenericColumnScan} {v : Int}
    (h : c.next.current = some v) : c.next.positionedAt v :=
  ⟨_, rfl, h⟩

theorem remaining_of_positionedAt {c : GenericColumnScan} {v : Int}
    (h : c.positionedAt v) : c.remaining.head? = some v := by
  obtain ⟨i, hi, hv⟩ := h
  rw [← current_eq_head_remaining c hi]
  unfold current
  rw [hi]; exact hv

theorem remaining_next_of_idx {c : GenericColumnScan} {i : Nat} (h : c.idx = some i) :
    c.next.remaining = c.remaining.tail := by
  unfold next remaining start
  rw [h]
  simp only []
  rw [← List.drop_drop]
  cases c.data.drop i with
  | nil => rfl
  | cons a l => rfl

theorem remaining_next_of_fresh {c : GenericColumnScan} (h : c.idx = none) :
    c.next.remaining = c.remaining := by
  unfold next remaining start
  rw [h]

theorem current_next_of_idx {c : GenericColumnScan} {i : Nat} (h : c.idx = some i) :
    c.next.current = c.remaining.tail.head? := by
  rw [current_eq_head_remaining c.next rfl, remaining_next_of_idx h]

theorem current_next_of_fresh {c : GenericColumnScan} (h : c.idx = none) :
    c.next.current = c.remaining.head? := by
  rw [current_eq_head_remaining c.next rfl, remaining_next_of_fresh h]

theorem data_seek (c : GenericColumnScan) (t : Int) : (c.seek t).data = c.data := rfl

theorem data_next (c : GenericColumnScan) : c.next.data = c.data := rfl

theorem start_le_start_seek (c : GenericColumnScan) (t : Int) :
    c.start ≤ (c.seek t).start :=
  Nat.le_add_right _ _

theorem sorted_remaining {c : GenericColumnScan} (h : List.Sorted (· < ·) c.data) :
    List.Sorted (· < ·) c.remaining :=
  List.Pairwise.sublist (List.drop_sublist _ _) h

end GenericColumnScan

/-- State of `OrderedMergeJoin` from `physical/columns/ordered_merge_join.rs`:
the list of sub-scans, the index of the active scan, the last value the active
scan produced, and the value of the most recent emission. -/
structure OrderedMergeJoin where
  column_scans : List GenericColumnScan
  active_scan : Nat
  active_max : Option Int
  current : Option Int
deriving Repr, DecidableEq

namespace OrderedMergeJoin

/-- `OrderedMergeJoin::new`: all sub-scans fresh, active index 0, no values. -/
def new (columns : List (List Int)) : OrderedMergeJoin :=
  { column_scans := columns.map (fun l => ⟨l, none⟩)
    active_scan := 0
    active_max := none
    current := none }

/-- Total length of the remainings of all sub-scans, the dominant component of
the fuel bound for the matching loop. -/
def totalRem (s : OrderedMergeJoin) : Nat :=
  (s.column_scans.map (fun c => c.remaining.length)).sum

/-- Number of sub-scans whose next value lies strictly above `active_max`, the
second component of the fuel bound. -/
def aboveMax (s : OrderedMergeJoin) : Nat :=
  match s.active_max with
  | none => 0
  | some m =>
    s.column_scans.countP (fun c =>
      match c.remaining.head? with
      | some v => decide (m < v)
      | none => false)

/-- Lexicographic measure `(totalRem, aboveMax, scans minus matched)` packed
into one natural number; it strictly decreases at every iteration of
`next_loop`. -/
def loopMeasure (s : OrderedMergeJoin) (matched : Nat) : Nat :=
  let n := s.column_scans.length
  totalRem s * (n + 1) * (n + 1) + aboveMax s * (n + 1) + (n - matched)

/-- One iteration of `OrderedMergeJoin::next_loop`.  The iteration rotates
`active_scan`, seeks that scan to `active_max` (panicking via `unwrap` were
`active_max` `None`, and via `% 0` were the scan list empty), and either
counts a match (emitting once all scans agree), raises `active_max` to the
scan's new value and continues, or stops with `None` when a scan is
exhausted.  `inl` is a return of the loop, `inr` the state and match count of
the next iteration. -/
def loopStep (s : OrderedMergeJoin) (matched : Nat) :
    (Res (Option Int × OrderedMergeJoin)) ⊕ (OrderedMergeJoin × Nat) :=
  if s.column_scans.length = 0 then .inl .fatal
  else
    let a := (s.active_scan + 1) % s.column_scans.length
    match s.active_max with
    | none => .inl .fatal
    | some m =>
      match s.column_scans.get? a with
      | none => .inl .fatal
      | some sc =>
        let sc2 := sc.seek m
        let scans2 := s.column_scans.set a sc2
        if sc2.current = some m then
          if matched + 1 = s.column_scans.length then
            .inl (.ok (some m, { column_scans := scans2, active_scan := a,
                                 active_max := some m, current := some m }))
          else
            .inr ({ column_scans := scans2, active_scan := a,
                    active_max := some m, current := s.current }, matched + 1)
        else
          match sc2.current with
          | none => .inl (.ok (none, { column_scans := scans2, active_scan := a,
                                       active_max := none, current := none }))
          | some v => .inr ({ column_scans := scans2, active_scan := a,
                              active_max := some v, current := s.current }, 1)

/-- `OrderedMergeJoin::next_loop`, with explicit fuel: iterate `loopStep`
until it returns. -/
def next_loop (fuel : Nat) (s : OrderedMergeJoin) (matched : Nat) :
    Res (Option Int × OrderedMergeJoin) :=
  match fuel with
  | 0 => .more
  | fuel + 1 =>
    match loopStep s matched with
    | .inl r => r
    | .inr (s2, matched2) => next_loop fuel s2 matched2

/-- `Iterator::next` for `OrderedMergeJoin`: advance the active scan; on
exhaustion clear `current` and stop; with a single sub-scan return its value
directly (leaving `current` untouched, as the source does); otherwise run the
matching loop.  The fuel passed to the loop exceeds its measure, so the loop
always completes (see `next_loop_no_more`). -/
def next (s : OrderedMergeJoin) : Res (Option Int × OrderedMergeJoin) :=
  match s.column_scans.get? s.active_scan with
  | none => .fatal
  | some sc =>
    let sc2 := sc.next
    let r := sc2.current
    let scans2 := s.column_scans.set s.active_scan sc2
    match r with
    | none => .ok (none, { s with column_scans := scans2, active_max := none, current := none })
    | some v =>
      let s2 : OrderedMergeJoin :=
        { s with column_scans := scans2, active_max := some v }
      if 1 < s.column_scans.length then next_loop (loopMeasure s2 1 + 1) s2 1
      else .ok (some v, s2)

/-- `ColumnScan::seek` for `OrderedMergeJoin`: seek the active scan to the
target; on failure clear `current` and stop (leaving `active_max` untouched);
with a single sub-scan return the scan's value directly (leaving `current`
untouched, as the source does); otherwise run the matching loop. -/
def seek (s : OrderedMergeJoin) (value : Int) : Res (Option Int × OrderedMergeJoin) :=
  match s.column_scans.get? s.active_scan with
  | none => .fatal
  | some sc =>
    let sc2 := sc.seek value
    let r := sc2.current
    let scans2 := s.column_scans.set s.active_scan sc2
    match r with
    | none => .ok (none, { s with column_scans := scans2, current := none })
    | some v =>
      let s2 : OrderedMergeJoin :=
        { s with column_scans := scans2, active_max := some v }
      if 1 < s.column_scans.length then next_loop (loopMeasure s2 1 + 1) s2 1
      else .ok (some v, s2)

/-- `RangedColumnScan::pos` for `OrderedMergeJoin` is `unimplemented!`. -/
def pos (_s : OrderedMergeJoin) : Res (Option Nat) := .fatal

/-- `RangedColumnScan::narrow` for `OrderedMergeJoin` is `unimplemented!`. -/
def narrow (_s : OrderedMergeJoin) (_interval : Nat × Nat) : Res OrderedMergeJoin := .fatal

/-- Drain the join: call `next` repeatedly, collecting emitted values, until
`next` yields `None` (or panics, or the step budget runs out). -/
def drain (steps : Nat) (s : OrderedMergeJoin) : List Int :=
  match steps with
  | 0 => []
  | steps + 1 =>
    match next s with
    | .ok (some v, s2) => v :: drain steps s2
    | _ => []

end OrderedMergeJoin

/-- The sorted intersection of a family of columns: the values of the first
column that occur in every column of the family. -/
def interList : List (List Int) → List Int
  | [] => []
  | l :: rest => l.filter (fun v => (l :: rest).all (fun l2 => decide (v ∈ l2)))

/-- The sorted intersection of the remainings of a list of scans. -/
def commonScans (scans : List GenericColumnScan) : List Int :=
  match scans with
  | [] => []
  | c :: _ => c.remaining.filter (fun v => scans.all (fun c2 => decide (v ∈ c2.remaining)))

theorem all_map_remaining (scans : List GenericColumnScan) (v : Int) :
    (scans.map GenericColumnScan.remaining).all (fun l2 => decide (v ∈ l2))
      = scans.all (fun c2 => decide (v ∈ c2.remaining)) := by
  induction scans with
  | nil => rfl
  | cons c rest ih => simp only [List.map_cons, List.all_cons, ih]

theorem commonScans_eq_interList (scans : List GenericColumnScan) :
    commonScans scans = interList (scans.map GenericColumnScan.remaining) := by
  cases scans with
  | nil => rfl
  | cons c rest =>
    simp only [commonScans, interList, List.map_cons]
    apply List.filter_congr
    intro v _
    rw [← List.map_cons, all_map_remaining]

namespace GenericColumnScan

theorem mem_remaining_seek_sub {c : GenericColumnScan} {m x : Int}
    (h : x ∈ (c.seek m).remaining) : x ∈ c.remaining := by
  rw [remaining_seek] at h
  exact (List.dropWhile_sublist _).subset h

theorem mem_remaining_seek_of_le {c : GenericColumnScan} {m x : Int} (hx : m ≤ x)
    (h : x ∈ c.remaining) : x ∈ (c.seek m).remaining := by
  rw [remaining_seek]
  apply mem_dropWhile_of_mem h
  simp only [decide_eq_false_iff_not, not_lt]
  exact hx

end GenericColumnScan

section SortedLemmas

theorem sorted_head_le {l : List Int} {m : Int} (hs : List.Sorted (· < ·) l)
    (hh : l.head? = some m) : ∀ x ∈ l, m ≤ x := by
  cases l with
  | nil => cases hh
  | cons a t =>
    have ha : a = m := by simpa using hh
    subst ha
    intro x hx
    rcases List.mem_cons.mp hx with rfl | hx2
    · exact le_refl _
    · exact le_of_lt ((List.pairwise_cons.mp hs).1 x hx2)

theorem head?_of_sorted_min {l : List Int} {m : Int} (hs : List.Sorted (· < ·) l)
    (hm : m ∈ l) (hmin : ∀ x ∈ l, m ≤ x) : l.head? = some m := by
  cases l with
  | nil => cases hm
  | cons a t =>
    rcases List.mem_cons.mp hm with rfl | hm2
    · rfl
    · have h1 : a < m := (List.pairwise_cons.mp hs).1 m hm2
      have h2 : m ≤ a := hmin a (List.mem_cons_self _ _)
      omega

theorem mem_of_head?_eq {l : List Int} {m : Int} (h : l.head? = some m) : m ∈ l := by
  cases l with
  | nil => cases h
  | cons a t =>
    have : a = m := by simpa using h
    subst this
    exact List.mem_cons_self _ _

end SortedLemmas

section RotationLemmas

/-- Backward rotation distance from `a` to `i` in a ring of `n` positions. -/
def rotDist (n a i : Nat) : Nat := (a + n - i) % n

theorem mod_two_regions (x n : Nat) (h1 : x < 2 * n) (h0 : 0 < n) :
    x % n = if x < n then x else x - n := by
  by_cases h : x < n
  · rw [if_pos h, Nat.mod_eq_of_lt h]
  · rw [if_neg h, Nat.mod_eq_sub_mod (by omega), Nat.mod_eq_of_lt (by omega)]

theorem rotDist_lt {n a i : Nat} (h0 : 0 < n) : rotDist n a i < n :=
  Nat.mod_lt _ h0

theorem rotDist_self {n a : Nat} (h0 : 0 < n) (ha : a < n) : rotDist n a a = 0 := by
  unfold rotDist
  rw [mod_two_regions _ _ (by omega) h0]
  split <;> omega

theorem rotDist_eq_zero {n a i : Nat} (h0 : 0 < n) (ha : a < n) (hi : i < n)
    (h : rotDist n a i = 0) : i = a := by
  unfold rotDist at h
  rw [mod_two_regions _ _ (by omega) h0] at h
  split at h <;> omega

theorem rotDist_succ_ne {n a i : Nat} (ha : a < n) (hi : i < n)
    (hne : i ≠ (a + 1) % n) : rotDist n ((a + 1) % n) i = rotDist n a i + 1 := by
  have h0 : 0 < n := by omega
  have hm1 : (a + 1) % n = if a + 1 < n then a + 1 else a + 1 - n :=
    mod_two_regions _ _ (by omega) h0
  unfold rotDist
  rw [hm1] at hne ⊢
  by_cases hc : a + 1 < n
  · rw [if_pos hc] at hne ⊢
    rw [mod_two_regions (a + 1 + n - i) n (by omega) h0,
      mod_two_regions (a + n - i) n (by omega) h0]
    split <;> split <;> omega
  · rw [if_neg hc] at hne ⊢
    rw [mod_two_regions (a + 1 - n + n - i) n (by omega) h0,
      mod_two_regions (a + n - i) n (by omega) h0]
    split <;> split <;> omega

theorem rotDist_eq_pred {n a i : Nat} (ha : a < n) (hi : i < n)
    (h : rotDist n a i = n - 1) : i = (a + 1) % n := by
  have h0 : 0 < n := by omega
  by_contra hne
  have h2 := rotDist_succ_ne ha hi hne
  have h3 : rotDist n ((a + 1) % n) i < n := rotDist_lt h0
  omega

end RotationLemmas

section CommonPreservation

/-- Seeking one scan to `m` does not change the membership tests of the family,
provided some scan of the family rejects every value below `m`. -/
theorem all_mem_set_seek_eq
    (T D : List GenericColumnScan) (sc cj : GenericColumnScan) (m : Int)
    (hcj : cj ∈ T ++ sc :: D)
    (hnm : ∀ v : Int, v < m → v ∉ cj.remaining)
    (v : Int) :
    ((T ++ (sc.seek m) :: D).all fun c2 => decide (v ∈ c2.remaining))
      = ((T ++ sc :: D).all fun c2 => decide (v ∈ c2.remaining)) := by
  by_cases hv : m ≤ v
  · simp only [List.all_append, List.all_cons]
    have h1 : decide (v ∈ (sc.seek m).remaining) = decide (v ∈ sc.remaining) :=
      decide_eq_decide.mpr ⟨fun h => GenericColumnScan.mem_remaining_seek_sub h,
                            fun h => GenericColumnScan.mem_remaining_seek_of_le hv h⟩
    rw [h1]
  · have hvm : v < m := not_le.mp hv
    have hnotc : decide (v ∈ cj.remaining) = false := by
      simp only [decide_eq_false_iff_not]
      exact hnm v hvm
    rcases List.mem_append.mp hcj with hT | hscD
    · have h1 : T.all (fun c2 => decide (v ∈ c2.remaining)) = false :=
        List.all_eq_false.mpr ⟨cj, hT, by simp [hnotc]⟩
      simp [List.all_append, h1]
    · rcases List.mem_cons.mp hscD with rfl | hD
      · have h1 : decide (v ∈ cj.remaining) = false := hnotc
        have h2 : decide (v ∈ (cj.seek m).remaining) = false := by
          simp only [decide_eq_false_iff_not]
          intro h
          exact (hnm v hvm) (GenericColumnScan.mem_remaining_seek_sub h)
        simp [List.all_append, List.all_cons, h1, h2]
      · have h1 : D.all (fun c2 => decide (v ∈ c2.remaining)) = false :=
          List.all_eq_false.mpr ⟨cj, hD, by simp [hnotc]⟩
        simp [List.all_append, List.all_cons, h1]

/-- Seeking one scan of the family to `m` preserves the common list, provided
some scan of the family rejects every value below `m`. -/
theorem commonScans_append_seek (T D : List GenericColumnScan) (sc cj : GenericColumnScan)
    (m : Int) (hcj : cj ∈ T ++ sc :: D)
    (hnm : ∀ v : Int, v < m → v ∉ cj.remaining) :
    commonScans (T ++ (sc.seek m) :: D) = commonScans (T ++ sc :: D) := by
  cases T with
  | cons c T2 =>
    simp only [List.cons_append, commonScans]
    exact List.filter_congr (fun v _ => by
      have := all_mem_set_seek_eq (c :: T2) D sc cj m hcj hnm v
      simpa [List.cons_append] using this)
  | nil =>
    simp only [List.nil_append, commonScans]
    have hsplit : sc.remaining = sc.remaining.takeWhile (fun v => decide (v < m))
        ++ (sc.seek m).remaining := by
      rw [GenericColumnScan.remaining_seek]
      exact (List.takeWhile_append_dropWhile _ _).symm
    conv_rhs => rw [hsplit]
    rw [List.filter_append]
    have htake : (sc.remaining.takeWhile (fun v => decide (v < m))).filter
        (fun v => ((sc :: D).all fun c2 => decide (v ∈ c2.remaining))) = [] := by
      rw [List.filter_eq_nil_iff]
      intro x hx
      have hxm0 := List.mem_takeWhile_imp hx
      have hxm : x < m := by simpa using hxm0
      intro hall
      have hallT := List.all_eq_true.mp hall
      have hcj2 : cj ∈ sc :: D := by simpa using hcj
      have := hallT cj hcj2
      exact hnm x hxm (of_decide_eq_true this)
    rw [htake, List.nil_append]
    exact List.filter_congr (fun v _ => by
      have := all_mem_set_seek_eq [] D sc cj m hcj hnm v
      simpa using this)

/-- The index-level version: seeking the scan at index `a` to `m` preserves the
common list, provided some scan is positioned with head `m` and sorted. -/
theorem commonScans_set_seek {scans : List GenericColumnScan} {a : Nat} (ha : a < scans.length)
    {cj : GenericColumnScan} (hcj : cj ∈ scans) {m : Int}
    (hhead : cj.remaining.head? = some m)
    (hsorted : List.Sorted (· < ·) cj.remaining) :
    commonScans (scans.set a ((scans.get ⟨a, ha⟩).seek m)) = commonScans scans := by
  have hnm : ∀ v : Int, v < m → v ∉ cj.remaining := by
    intro v hvm hmem
    exact absurd (sorted_head_le hsorted hhead v hmem) (by omega)
  have hdecomp : scans = scans.take a ++ scans.get ⟨a, ha⟩ :: scans.drop (a + 1) := by
    conv_lhs => rw [← List.take_append_drop a scans]
    congr 1
    exact (List.get_cons_drop scans ⟨a, ha⟩).symm
  have hset : scans.set a ((scans.get ⟨a, ha⟩).seek m)
      = scans.take a ++ ((scans.get ⟨a, ha⟩).seek m) :: scans.drop (a + 1) := by
    rw [List.set_eq_take_append_cons_drop, if_pos ha]
  rw [hset]
  conv_rhs => rw [hdecomp]
  exact commonScans_append_seek _ _ _ cj m (hdecomp ▸ hcj) hnm

/-- Every scan of the family is positioned exactly at value `v`. -/
def positionedAll (scans : List GenericColumnScan) (v : Int) : Prop :=
  ∀ i (h : i < scans.length), (scans.get ⟨i, h⟩).positionedAt v

/-- The data of every scan of the family is sorted and strictly ascending. -/
def sortedScans (scans : List GenericColumnScan) : Prop :=
  ∀ c ∈ scans, List.Sorted (· < ·) c.data

theorem commonScans_head_eq {scans : List GenericColumnScan} (hsort : sortedScans scans)
    {m : Int} (hmem : ∀ c ∈ scans, m ∈ c.remaining)
    (hmin : ∀ x ∈ commonScans scans, m ≤ x) (hne : scans ≠ []) :
    (commonScans scans).head? = some m := by
  cases scans with
  | nil => exact absurd rfl hne
  | cons c0 rest =>
    have hbase : List.Sorted (· < ·) c0.remaining :=
      GenericColumnScan.sorted_remaining (hsort c0 (List.mem_cons_self _ _))
    have hsortf : List.Sorted (· < ·) (commonScans (c0 :: rest)) := by
      simp only [commonScans]
      exact hbase.filter _
    apply head?_of_sorted_min hsortf
    · simp only [commonScans]
      rw [List.mem_filter]
      refine ⟨hmem c0 (List.mem_cons_self _ _), ?_⟩
      rw [List.all_eq_true]
      intro c2 hc2
      exact decide_eq_true (hmem c2 hc2)
    · exact hmin

theorem commonScans_eq_nil_of_conflict {scans : List GenericColumnScan}
    {ca cb : GenericColumnScan} (hca : ca ∈ scans) (hcb : cb ∈ scans) {m : Int}
    (hlt : ∀ x ∈ ca.remaining, x < m) (hge : ∀ x ∈ cb.remaining, m ≤ x) :
    commonScans scans = [] := by
  cases scans with
  | nil => rfl
  | cons c0 rest =>
    simp only [commonScans]
    rw [List.filter_eq_nil_iff]
    intro x _ hall
    have h1 := List.all_eq_true.mp hall ca hca
    have h2 := List.all_eq_true.mp hall cb hcb
    have hxa : x ∈ ca.remaining := of_decide_eq_true h1
    have hxb : x ∈ cb.remaining := of_decide_eq_true h2
    have := hlt x hxa
    have := hge x hxb
    omega

theorem mem_all_of_mem_commonScans {scans : List GenericColumnScan} {x : Int}
    (hx : x ∈ commonScans scans) : ∀ c ∈ scans, x ∈ c.remaining := by
  cases scans with
  | nil => cases hx
  | cons c0 rest =>
    simp only [commonScans] at hx
    intro c hc
    have hall := (List.mem_filter.mp hx).2
    exact of_decide_eq_true (List.all_eq_true.mp hall c hc)

theorem mem_of_forall_get {scans : List GenericColumnScan} {P : GenericColumnScan → Prop}
    (h : ∀ i (hi : i < scans.length), P (scans.get ⟨i, hi⟩)) :
    ∀ c ∈ scans, P c := by
  intro c hc
  obtain ⟨i, hi⟩ := List.mem_iff_get.mp hc
  subst hi
  exact h i.1 i.2

theorem commonScans_congr {scans scans' : List GenericColumnScan}
    (hlen : scans'.length = scans.length)
    (h : ∀ i (hi : i < scans.length) (hi' : i < scans'.length),
        (scans'.get ⟨i, hi'⟩).remaining = (scans.get ⟨i, hi⟩).remaining) :
    commonScans scans' = commonScans scans := by
  rw [commonScans_eq_interList, commonScans_eq_interList]
  congr 1
  apply List.ext_get (by simp [hlen])
  intro i h1 h2
  simp only [List.get_map]
  exact h i (by simpa using h2) (by simpa using h1)

theorem commonScans_eq_nil_of_empty {scans : List GenericColumnScan}
    {c : GenericColumnScan} (hc : c ∈ scans) (hemp : c.remaining = []) :
    commonScans scans = [] := by
  cases scans with
  | nil => rfl
  | cons c0 rest =>
    simp only [commonScans]
    rw [List.filter_eq_nil_iff]
    intro x _ hall
    have h1 := of_decide_eq_true (List.all_eq_true.mp hall c hc)
    rw [hemp] at h1
    cases h1

theorem commonScans_singleton (c : GenericColumnScan) :
    commonScans [c] = c.remaining := by
  simp only [commonScans]
  apply List.filter_eq_self.mpr
  intro x hx
  simp [hx]

theorem sortedScans_of_data_eq {scans scans' : List GenericColumnScan}
    (hlen : scans'.length = scans.length)
    (h : ∀ i (hi : i < scans.length) (hi' : i < scans'.length),
        (scans'.get ⟨i, hi'⟩).data = (scans.get ⟨i, hi⟩).data)
    (hs : sortedScans scans) : sortedScans scans' := by
  apply mem_of_forall_get
  intro i hi'
  rw [h i (by omega) hi']
  exact hs _ (List.get_mem _ _ _)

theorem eq_cons_of_head? {l : List Int} {v : Int} (h : l.head? = some v) :
    l = v :: l.tail := by
  cases l with
  | nil => cases h
  | cons a t =>
    have : a = v := by simpa using h
    subst this
    rfl

theorem sorted_tail_gt {l : List Int} {v : Int} (hs : List.Sorted (· < ·) l)
    (hh : l.head? = some v) : ∀ x ∈ l.tail, v < x := by
  cases l with
  | nil => cases hh
  | cons a t =>
    have : a = v := by simpa using hh
    subst this
    exact fun x hx => (List.pairwise_cons.mp hs).1 x hx

theorem not_mem_tail_of_sorted {l : List Int} {v : Int} (hs : List.Sorted (· < ·) l)
    (hh : l.head? = some v) : v ∉ l.tail := by
  intro hmem
  exact absurd (sorted_tail_gt hs hh v hmem) (lt_irrefl v)

theorem commonScans_head_of_positionedAll {scans : List GenericColumnScan}
    (hsort : sortedScans scans) {v : Int} (hpos : positionedAll scans v)
    (hne : scans ≠ []) : (commonScans scans).head? = some v := by
  have hmem : ∀ c ∈ scans, v ∈ c.remaining :=
    mem_of_forall_get (fun i hi =>
      mem_of_head?_eq (GenericColumnScan.remaining_of_positionedAt (hpos i hi)))
  have hne0 : 0 < scans.length := by
    cases scans with
    | nil => exact absurd rfl hne
    | cons a t => simp
  have hmin : ∀ x ∈ commonScans scans, v ≤ x := by
    intro x hx
    have hx0 := mem_all_of_mem_commonScans hx _ (List.get_mem scans 0 hne0)
    exact sorted_head_le
      (GenericColumnScan.sorted_remaining (hsort _ (List.get_mem _ _ _)))
      (GenericColumnScan.remaining_of_positionedAt (hpos 0 hne0)) x hx0
  exact commonScans_head_eq hsort hmem hmin hne

theorem commonScans_sorted {scans : List GenericColumnScan} (hsort : sortedScans scans) :
    List.Sorted (· < ·) (commonScans scans) := by
  cases scans with
  | nil => exact List.sorted_nil
  | cons c0 rest =>
    simp only [commonScans]
    exact (GenericColumnScan.sorted_remaining (hsort c0 (List.mem_cons_self _ _))).filter _

theorem commonScans_of_length_one {scans : List GenericColumnScan}
    (h : scans.length = 1) (h0 : 0 < scans.length) :
    commonScans scans = (scans.get ⟨0, h0⟩).remaining := by
  cases scans with
  | nil => simp at h
  | cons c rest =>
    cases rest with
    | nil => exact commonScans_singleton c
    | cons c2 rest2 => simp at h

theorem all_mem_next_eq (T D : List GenericColumnScan) (sc : GenericColumnScan)
    {i : Nat} (hidx : sc.idx = some i) {v : Int} (hhead : sc.remaining.head? = some v)
    (x : Int) (hx : x ≠ v) :
    ((T ++ sc.next :: D).all fun c2 => decide (x ∈ c2.remaining))
      = ((T ++ sc :: D).all fun c2 => decide (x ∈ c2.remaining)) := by
  simp only [List.all_append, List.all_cons]
  have h1 : decide (x ∈ sc.next.remaining) = decide (x ∈ sc.remaining) := by
    rw [GenericColumnScan.remaining_next_of_idx hidx]
    apply decide_eq_decide.mpr
    constructor
    · intro h
      rw [eq_cons_of_head? hhead]
      exact List.mem_cons_of_mem _ h
    · intro h
      rw [eq_cons_of_head? hhead] at h
      rcases List.mem_cons.mp h with rfl | h2
      · exact absurd rfl hx
      · exact h2
  rw [h1]

/-- Advancing a scan positioned at the shared head value `v` removes exactly
`v` from the common list of the family. -/
theorem commonScans_append_next (T D : List GenericColumnScan) (sc : GenericColumnScan)
    (v : Int) {i : Nat} (hidx : sc.idx = some i)
    (hhead_all : ∀ c ∈ T ++ sc :: D, c.remaining.head? = some v)
    (hsorted_all : ∀ c ∈ T ++ sc :: D, List.Sorted (· < ·) c.remaining) :
    commonScans (T ++ sc.next :: D) = (commonScans (T ++ sc :: D)).tail := by
  have hscmem : sc ∈ T ++ sc :: D := List.mem_append_right _ (List.mem_cons_self _ _)
  have hschead : sc.remaining.head? = some v := hhead_all sc hscmem
  have hscsorted := hsorted_all sc hscmem
  have hnotail : v ∉ sc.next.remaining := by
    rw [GenericColumnScan.remaining_next_of_idx hidx]
    exact not_mem_tail_of_sorted hscsorted hschead
  have hvmem : ∀ c ∈ T ++ sc :: D, v ∈ c.remaining :=
    fun c hc => mem_of_head?_eq (hhead_all c hc)
  cases T with
  | nil =>
    simp only [List.nil_append, commonScans]
    rw [GenericColumnScan.remaining_next_of_idx hidx]
    conv_rhs => rw [eq_cons_of_head? hschead]
    rw [List.filter_cons]
    have hpv : ((sc :: D).all fun c2 => decide (v ∈ c2.remaining)) = true := by
      rw [List.all_eq_true]
      intro c hc
      exact decide_eq_true (hvmem c (by simpa using hc))
    rw [if_pos (by rw [hpv])]
    show List.filter _ sc.remaining.tail = List.filter _ sc.remaining.tail
    apply List.filter_congr
    intro x hxt
    have hxv : x ≠ v := by
      intro hh
      subst hh
      exact not_mem_tail_of_sorted hscsorted hschead hxt
    have := all_mem_next_eq [] D sc hidx hschead x hxv
    simpa [GenericColumnScan.remaining_next_of_idx hidx] using this
  | cons c0 T2 =>
    have hc0mem : c0 ∈ c0 :: (T2 ++ sc :: D) := List.mem_cons_self _ _
    have hc0head : c0.remaining.head? = some v := hhead_all c0 (by simpa using hc0mem)
    have hc0sorted : List.Sorted (· < ·) c0.remaining := hsorted_all c0 (by simpa using hc0mem)
    simp only [List.cons_append, commonScans]
    conv_lhs => rw [eq_cons_of_head? hc0head]
    conv_rhs => rw [eq_cons_of_head? hc0head]
    rw [List.filter_cons, List.filter_cons]
    have hpv : ((c0 :: (T2 ++ sc :: D)).all fun c2 => decide (v ∈ c2.remaining)) = true := by
      rw [List.all_eq_true]
      intro c hc
      exact decide_eq_true (hvmem c (by simpa using hc))
    have hpv2 : ((c0 :: (T2 ++ sc.next :: D)).all fun c2 => decide (v ∈ c2.remaining))
        = false := by
      rw [List.all_eq_false]
      exact ⟨sc.next, by simp, by simp [hnotail]⟩
    rw [if_neg (by rw [hpv2]; simp), if_pos (by rw [hpv])]
    show List.filter _ c0.remaining.tail = List.filter _ c0.remaining.tail
    apply List.filter_congr
    intro x hxt
    have hxv : x ≠ v := by
      intro hh
      subst hh
      exact not_mem_tail_of_sorted hc0sorted hc0head hxt
    have := all_mem_next_eq (c0 :: T2) D sc hidx hschead x hxv
    simpa [List.cons_append] using this

/-- Index-level version of `commonScans_append_next`. -/
theorem commonScans_set_next_tail {scans : List GenericColumnScan} {a : Nat}
    (ha : a < scans.length) {v : Int} (hsort : sortedScans scans)
    (hpos : positionedAll scans v) :
    commonScans (scans.set a ((scans.get ⟨a, ha⟩).next))
      = (commonScans scans).tail := by
  obtain ⟨i, hidx, hgv⟩ := hpos a ha
  have hdecomp : scans = scans.take a ++ scans.get ⟨a, ha⟩ :: scans.drop (a + 1) := by
    conv_lhs => rw [← List.take_append_drop a scans]
    congr 1
    exact (List.get_cons_drop scans ⟨a, ha⟩).symm
  have hset : scans.set a ((scans.get ⟨a, ha⟩).next)
      = scans.take a ++ ((scans.get ⟨a, ha⟩).next) :: scans.drop (a + 1) := by
    rw [List.set_eq_take_append_cons_drop, if_pos ha]
  rw [hset]
  conv_rhs => rw [hdecomp]
  apply commonScans_append_next _ _ _ v hidx
  · intro c hc
    rw [← hdecomp] at hc
    obtain ⟨j, hj⟩ := List.mem_iff_get.mp hc
    subst hj
    exact GenericColumnScan.remaining_of_positionedAt (hpos j.1 j.2)
  · intro c hc
    rw [← hdecomp] at hc
    exact GenericColumnScan.sorted_remaining (hsort c hc)

theorem dropWhile_lt_eq_filter {l : List Int} (hs : List.Sorted (· < ·) l) (t : Int) :
    l.dropWhile (fun v => decide (v < t)) = l.filter (fun v => decide (t ≤ v)) := by
  induction l with
  | nil => rfl
  | cons a l2 ih =>
    rw [List.dropWhile_cons, List.filter_cons]
    by_cases hat : a < t
    · rw [if_pos (by simpa using hat), if_neg (by simpa using hat)]
      exact ih (List.Sorted.of_cons hs)
    · rw [if_neg (by simpa using hat), if_pos (by simpa using not_lt.mp hat)]
      congr 1
      symm
      apply List.filter_eq_self.mpr
      intro x hx
      have h1 : a < x := (List.pairwise_cons.mp hs).1 x hx
      have h2 : t ≤ a := not_lt.mp hat
      simp
      omega

/-- Seeking the base scan of a family to `t` cuts the common list down to its
values at or above `t`, provided the base scan is sorted. -/
theorem commonScans_cons_seek_fresh (sc : GenericColumnScan) (D : List GenericColumnScan)
    (t : Int) (hsorted_sc : List.Sorted (· < ·) sc.remaining) :
    commonScans ((sc.seek t) :: D)
      = (commonScans (sc :: D)).dropWhile (fun v => decide (v < t)) := by
  simp only [commonScans]
  rw [GenericColumnScan.remaining_seek, dropWhile_lt_eq_filter hsorted_sc t]
  have hsortfil : List.Sorted (· < ·)
      (sc.remaining.filter (fun v => (sc :: D).all fun c2 => decide (v ∈ c2.remaining))) :=
    hsorted_sc.filter _
  rw [dropWhile_lt_eq_filter hsortfil t, List.filter_filter, List.filter_filter]
  apply List.filter_congr
  intro x hx
  by_cases hxt : t ≤ x
  · have hmem : decide (x ∈ (sc.seek t).remaining) = decide (x ∈ sc.remaining) :=
      decide_eq_decide.mpr ⟨fun h => GenericColumnScan.mem_remaining_seek_sub h,
                            fun h => GenericColumnScan.mem_remaining_seek_of_le hxt h⟩
    simp only [List.all_cons, hmem, decide_eq_true hxt]
    rw [Bool.and_comm]
  · have hxt2 : decide (t ≤ x) = false := by simpa using hxt
    simp [hxt2]

theorem commonScans_set_zero_seek {scans : List GenericColumnScan}
    (h0 : 0 < scans.length) (t : Int)
    (hsorted : List.Sorted (· < ·) (scans.get ⟨0, h0⟩).remaining) :
    commonScans (scans.set 0 ((scans.get ⟨0, h0⟩).seek t))
      = (commonScans scans).dropWhile (fun v => decide (v < t)) := by
  cases scans with
  | nil => simp at h0
  | cons c0 rest =>
    rw [List.set_cons_zero]
    exact commonScans_cons_seek_fresh c0 rest t hsorted

end CommonPreservation

section MeasureLemmas

variable {α : Type _}

theorem sum_map_set (f : α → Nat) (l : List α) (i : Nat) (x : α) (h : i < l.length) :
    ((l.set i x).map f).sum + f (l.get ⟨i, h⟩) = (l.map f).sum + f x := by
  induction l generalizing i with
  | nil => simp at h
  | cons a t ih =>
    cases i with
    | zero => simp [List.set_cons_zero]; omega
    | succ i =>
      have h2 : i < t.length := by simpa using h
      have h3 := ih i h2
      simp only [List.set_cons_succ, List.map_cons, List.sum_cons, List.get_cons_succ]
      omega

theorem countP_set (p : α → Bool) (l : List α) (i : Nat) (x : α) (h : i < l.length) :
    (l.set i x).countP p + (if p (l.get ⟨i, h⟩) then 1 else 0)
      = l.countP p + (if p x then 1 else 0) := by
  induction l generalizing i with
  | nil => simp at h
  | cons a t ih =>
    cases i with
    | zero => simp [List.set_cons_zero, List.countP_cons]; omega
    | succ i =>
      have h2 : i < t.length := by simpa using h
      have h3 := ih i h2
      simp only [List.set_cons_succ, List.countP_cons, List.get_cons_succ]
      omega

theorem countP_lt_of_mem {p q : α → Bool} {l : List α} {x : α} (hx : x ∈ l)
    (hp : p x = false) (hq : q x = true)
    (hmono : ∀ y ∈ l, p y = true → q y = true) :
    l.countP p < l.countP q := by
  induction l with
  | nil => cases hx
  | cons a t ih =>
    rw [List.countP_cons, List.countP_cons]
    rcases List.mem_cons.mp hx with rfl | hx2
    · rw [hp, hq]
      have h2 : t.countP p ≤ t.countP q :=
        List.countP_mono_left (fun y hy => hmono y (List.mem_cons_of_mem _ hy))
      simp only [Bool.false_eq_true, if_false, if_true]
      omega
    · have h2 : t.countP p < t.countP q :=
        ih hx2 (fun y hy => hmono y (List.mem_cons_of_mem _ hy))
      have h3 : (if p a = true then 1 else 0) ≤ (if q a = true then 1 else 0) := by
        by_cases hpa : p a = true
        · rw [if_pos hpa, if_pos (hmono a (List.mem_cons_self _ _) hpa)]
        · rw [if_neg hpa]; omega
      omega

theorem length_dropWhile_le (p : α → Bool) (l : List α) :
    (l.dropWhile p).length ≤ l.length := by
  induction l with
  | nil => simp
  | cons a t ih =>
    rw [List.dropWhile_cons]
    by_cases h : p a
    · rw [if_pos h]
      exact Nat.le_trans ih (by simp)
    · rw [if_neg h]

theorem dropWhile_eq_self_or_length_lt (p : α → Bool) (l : List α) :
    l.dropWhile p = l ∨ (l.dropWhile p).length < l.length := by
  cases l with
  | nil => exact Or.inl rfl
  | cons a t =>
    rw [List.dropWhile_cons]
    by_cases h : p a
    · rw [if_pos h]
      exact Or.inr (Nat.lt_of_le_of_lt (length_dropWhile_le p t) (by simp))
    · rw [if_neg h]
      exact Or.inl rfl

theorem lex_measure_lt {B a a2 b b2 c c2 : Nat} (hb2 : b2 ≤ B) (hc2 : c2 ≤ B)
    (h : a2 < a ∨ (a2 = a ∧ (b2 < b ∨ (b2 = b ∧ c2 < c)))) :
    a2 * (B + 1) * (B + 1) + b2 * (B + 1) + c2
      < a * (B + 1) * (B + 1) + b * (B + 1) + c := by
  rcases h with h | ⟨rfl, h | ⟨rfl, h⟩⟩
  · have h1 : b2 * (B + 1) ≤ B * (B + 1) := Nat.mul_le_mul_right _ hb2
    have h2 : (a2 + 1) * (B + 1) * (B + 1) ≤ a * (B + 1) * (B + 1) :=
      Nat.mul_le_mul_right _ (Nat.mul_le_mul_right _ h)
    have h3 : (a2 + 1) * (B + 1) * (B + 1) = a2 * (B + 1) * (B + 1) + (B + 1) * (B + 1) := by ring
    nlinarith
  · have h1 : (b2 + 1) * (B + 1) ≤ b * (B + 1) := Nat.mul_le_mul_right _ h
    have h2 : (b2 + 1) * (B + 1) = b2 * (B + 1) + (B + 1) := by ring
    omega
  · omega

end MeasureLemmas

namespace OrderedMergeJoin

/-- The count of scans above `active_max` never exceeds the number of scans. -/
theorem aboveMax_le (s : OrderedMergeJoin) : aboveMax s ≤ s.column_scans.length := by
  unfold aboveMax
  cases s.active_max with
  | none => exact Nat.zero_le _
  | some m => exact List.countP_le_length _

/-- The head-value predicate counted by `aboveMax`. -/
def headAbove (t : Int) (c : GenericColumnScan) : Bool :=
  match c.remaining.head? with
  | some v => decide (t < v)
  | none => false

theorem aboveMax_eq_countP (s : OrderedMergeJoin) {m : Int} (h : s.active_max = some m) :
    aboveMax s = s.column_scans.countP (headAbove m) := by
  unfold aboveMax headAbove
  rw [h]

/-- When an iteration of the matching loop continues, the scan-list length is
preserved, the match count stays below it, and the loop measure strictly
decreases. -/
theorem loopStep_inr {s s2 : OrderedMergeJoin} {matched matched2 : Nat}
    (hn : 2 ≤ s.column_scans.length) (hmb : matched < s.column_scans.length)
    (h : loopStep s matched = .inr (s2, matched2)) :
    s2.column_scans.length = s.column_scans.length ∧ matched2 < s2.column_scans.length ∧
      loopMeasure s2 matched2 < loopMeasure s matched := by
  have hne0 : (s.column_scans.length = 0) = False := eq_false (by omega)
  simp only [loopStep, hne0, if_false, Bool.false_eq_true] at h
  rcases hmx : s.active_max with _ | m
  · rw [hmx] at h; simp at h
  rw [hmx] at h
  have ha : (s.active_scan + 1) % s.column_scans.length < s.column_scans.length :=
    Nat.mod_lt _ (by omega)
  rw [List.get?_eq_get ha] at h
  dsimp only at h
  set n := s.column_scans.length with hn_def
  set a := (s.active_scan + 1) % n with ha_def
  set sc := s.column_scans.get ⟨a, ha⟩ with hsc_def
  set sc2 := sc.seek m with hsc2_def
  -- facts shared by both continuing branches
  have hflen := sum_map_set (fun c => c.remaining.length) s.column_scans a sc2 ha
  have hrem : sc2.remaining = sc.remaining.dropWhile (fun v => decide (v < m)) :=
    GenericColumnScan.remaining_seek sc m
  have hlen_set : (s.column_scans.set a sc2).length = n := by
    rw [List.length_set]
  by_cases hcur : sc2.current = some m
  · rw [if_pos hcur] at h
    by_cases hfull : matched + 1 = n
    · rw [if_pos hfull] at h; simp at h
    · rw [if_neg hfull] at h
      simp only [Sum.inr.injEq, Prod.mk.injEq] at h
      obtain ⟨hs2, hk2⟩ := h
      subst hs2; subst hk2
      refine ⟨hlen_set, by simp only [hlen_set]; omega, ?_⟩
      -- measure decrease, match-count branch
      have hR : totalRem { column_scans := s.column_scans.set a sc2, active_scan := a,
                           active_max := some m, current := s.current }
            + sc.remaining.length = totalRem s + sc2.remaining.length := hflen
      rcases dropWhile_eq_self_or_length_lt (fun v => decide (v < m)) sc.remaining with heq | hlt
      · -- no movement: match count increases, the rest is unchanged
        have hremeq : sc2.remaining = sc.remaining := hrem.trans heq
        have hlen_eq : sc2.remaining.length = sc.remaining.length := by rw [hremeq]
        have hRe : totalRem { column_scans := s.column_scans.set a sc2, active_scan := a,
                              active_max := some m, current := s.current } = totalRem s := by
          omega
        have hhead : headAbove m sc2 = headAbove m sc := by
          unfold headAbove; rw [hremeq]
        have hcount := countP_set (headAbove m) s.column_scans a sc2 ha
        rw [hhead] at hcount
        have hCe : aboveMax { column_scans := s.column_scans.set a sc2, active_scan := a,
                              active_max := some m, current := s.current } = aboveMax s := by
          rw [aboveMax_eq_countP _ rfl, aboveMax_eq_countP s hmx]
          exact Nat.add_right_cancel hcount
        simp only [loopMeasure, hlen_set, hRe, hCe]
        rw [← hn_def]
        exact lex_measure_lt (aboveMax_le s) (Nat.sub_le _ _)
          (Or.inr ⟨rfl, Or.inr ⟨rfl, by omega⟩⟩)
      · -- the seek moved the scan: total remaining length decreases
        have hlen_lt : sc2.remaining.length < sc.remaining.length := by
          rw [hrem]; exact hlt
        have hRlt : totalRem { column_scans := s.column_scans.set a sc2, active_scan := a,
                               active_max := some m, current := s.current } < totalRem s := by
          omega
        simp only [loopMeasure, hlen_set]
        rw [← hn_def]
        exact lex_measure_lt (le_trans (aboveMax_le _) (le_of_eq hlen_set)) (Nat.sub_le _ _)
          (Or.inl hRlt)
  · rw [if_neg hcur] at h
    rcases hc2 : sc2.current with _ | v
    · rw [hc2] at h; simp at h
    rw [hc2] at h
    simp only [Sum.inr.injEq, Prod.mk.injEq] at h
    obtain ⟨hs2, hk2⟩ := h
    subst hs2; subst hk2
    refine ⟨hlen_set, by simp only [hlen_set]; omega, ?_⟩
    have hne : v ≠ m := by
      intro hvm; rw [hvm] at hc2; exact hcur hc2
    have hR : totalRem { column_scans := s.column_scans.set a sc2, active_scan := a,
                         active_max := some v, current := s.current }
          + sc.remaining.length = totalRem s + sc2.remaining.length := hflen
    rcases dropWhile_eq_self_or_length_lt (fun v => decide (v < m)) sc.remaining with heq | hlt
    · -- no movement: active_max strictly increases, so the above-max count drops
      have hremeq : sc2.remaining = sc.remaining := hrem.trans heq
      have hlen_eq : sc2.remaining.length = sc.remaining.length := by rw [hremeq]
      have hRe : totalRem { column_scans := s.column_scans.set a sc2, active_scan := a,
                            active_max := some v, current := s.current } = totalRem s := by
        omega
      have hhead : sc.remaining.head? = some v := by
        rw [← hremeq, ← GenericColumnScan.current_seek_eq_head sc m, ← hsc2_def, hc2]
      have hle : m ≤ v := by
        have hfind := GenericColumnScan.current_seek sc m
        rw [← hsc2_def, hc2] at hfind
        have := List.find?_some hfind.symm
        exact of_decide_eq_true this
      have hmv : m < v := lt_of_le_of_ne hle (fun hh => hne hh.symm)
      have hheadv : headAbove v sc2 = headAbove v sc := by
        unfold headAbove; rw [hremeq]
      have hcount := countP_set (headAbove v) s.column_scans a sc2 ha
      rw [hheadv] at hcount
      have hCset : (s.column_scans.set a sc2).countP (headAbove v)
          = s.column_scans.countP (headAbove v) := Nat.add_right_cancel hcount
      have hClt : s.column_scans.countP (headAbove v)
          < s.column_scans.countP (headAbove m) := by
        refine countP_lt_of_mem (List.get_mem s.column_scans a ha) ?_ ?_ ?_
        · unfold headAbove; rw [← hsc_def, hhead]; simp
        · unfold headAbove; rw [← hsc_def, hhead]; simp [hmv]
        · intro y _ hy
          unfold headAbove at hy ⊢
          rcases hyh : y.remaining.head? with _ | w
          · rw [hyh] at hy; cases hy
          · rw [hyh] at hy
            have : v < w := of_decide_eq_true hy
            simp [lt_trans hmv this]
      have hCe : aboveMax { column_scans := s.column_scans.set a sc2, active_scan := a,
                            active_max := some v, current := s.current }
          < aboveMax s := by
        rw [aboveMax_eq_countP _ rfl, aboveMax_eq_countP s hmx]
        calc (s.column_scans.set a sc2).countP (headAbove v)
            = s.column_scans.countP (headAbove v) := hCset
          _ < s.column_scans.countP (headAbove m) := hClt
      simp only [loopMeasure, hlen_set, hRe]
      rw [← hn_def]
      exact lex_measure_lt (le_trans (le_of_lt hCe) (aboveMax_le s)) (Nat.sub_le _ _)
        (Or.inr ⟨rfl, Or.inl hCe⟩)
    · have hlen_lt : sc2.remaining.length < sc.remaining.length := by
        rw [hrem]; exact hlt
      have hRlt : totalRem { column_scans := s.column_scans.set a sc2, active_scan := a,
                             active_max := some v, current := s.current } < totalRem s := by
        omega
      simp only [loopMeasure, hlen_set]
      rw [← hn_def]
      exact lex_measure_lt (le_trans (aboveMax_le _) (le_of_eq hlen_set)) (Nat.sub_le _ _)
        (Or.inl hRlt)

/-- A returning iteration of the matching loop never returns `.more`. -/
theorem loopStep_ne_inl_more (s : OrderedMergeJoin) (matched : Nat)
    (r : Res (Option Int × OrderedMergeJoin)) (h : loopStep s matched = .inl r) :
    r ≠ .more := by
  intro hr
  subst hr
  simp only [loopStep] at h
  repeat' split at h
  all_goals simp at h

/-- Termination of the matching loop: with fuel exceeding the loop measure,
the loop never runs out of fuel. -/
theorem next_loop_no_more : ∀ (fuel : Nat) (s : OrderedMergeJoin) (matched : Nat),
    2 ≤ s.column_scans.length → matched < s.column_scans.length →
    loopMeasure s matched < fuel → next_loop fuel s matched ≠ .more := by
  intro fuel
  induction fuel with
  | zero => intro s matched _ _ hlt; omega
  | succ fuel ih =>
    intro s matched hn hmb hlt
    rw [next_loop]
    rcases hstep : loopStep s matched with r | ⟨s2, matched2⟩
    · dsimp only
      exact loopStep_ne_inl_more s matched r hstep
    · dsimp only
      obtain ⟨hlen, hk, hdec⟩ := loopStep_inr hn hmb hstep
      exact ih s2 matched2 (by omega) hk (by omega)

/-- Correctness of the matching loop: under the sortedness invariant, with the
active scan positioned at `active_max = m` and the `matched` most recent scans
in rotation order all positioned there, the loop returns the head of the
common list of the family, preserves the common list, keeps each scan's data,
and on success positions every scan at the emitted value. -/
theorem next_loop_correct :
    ∀ (fuel : Nat) (s : OrderedMergeJoin) (matched : Nat) (m : Int),
    loopMeasure s matched < fuel →
    2 ≤ s.column_scans.length →
    s.active_scan < s.column_scans.length →
    s.active_max = some m →
    1 ≤ matched → matched < s.column_scans.length →
    sortedScans s.column_scans →
    (∀ i (hi : i < s.column_scans.length),
        rotDist s.column_scans.length s.active_scan i < matched →
        (s.column_scans.get ⟨i, hi⟩).positionedAt m) →
    ∃ s3 : OrderedMergeJoin,
      next_loop fuel s matched = .ok ((commonScans s.column_scans).head?, s3) ∧
      s3.column_scans.length = s.column_scans.length ∧
      s3.active_scan < s3.column_scans.length ∧
      commonScans s3.column_scans = commonScans s.column_scans ∧
      (∀ i (hi : i < s.column_scans.length) (hi3 : i < s3.column_scans.length),
          (s3.column_scans.get ⟨i, hi3⟩).data = (s.column_scans.get ⟨i, hi⟩).data) ∧
      (match (commonScans s.column_scans).head? with
       | some v => s3.current = some v ∧ s3.active_max = some v ∧
           positionedAll s3.column_scans v
       | none => s3.current = none) := by
  intro fuel
  induction fuel with
  | zero => intro s matched m hfuel; omega
  | succ fuel ih =>
    intro s matched m hfuel hn hact hmax hm1 hmn hsort hpos
    have hn0 : 0 < s.column_scans.length := by omega
    have ha : (s.active_scan + 1) % s.column_scans.length < s.column_scans.length :=
      Nat.mod_lt _ hn0
    have hposact : (s.column_scans.get ⟨s.active_scan, hact⟩).positionedAt m :=
      hpos s.active_scan hact (by rw [rotDist_self hn0 hact]; omega)
    have hheadact : (s.column_scans.get ⟨s.active_scan, hact⟩).remaining.head? = some m :=
      GenericColumnScan.remaining_of_positionedAt hposact
    have hsortact : List.Sorted (· < ·) (s.column_scans.get ⟨s.active_scan, hact⟩).remaining :=
      GenericColumnScan.sorted_remaining (hsort _ (List.get_mem _ _ _))
    have hgeact : ∀ x ∈ (s.column_scans.get ⟨s.active_scan, hact⟩).remaining, m ≤ x :=
      sorted_head_le hsortact hheadact
    have hcommon :
        commonScans (s.column_scans.set ((s.active_scan + 1) % s.column_scans.length)
          ((s.column_scans.get ⟨(s.active_scan + 1) % s.column_scans.length, ha⟩).seek m))
          = commonScans s.column_scans :=
      commonScans_set_seek ha (List.get_mem _ _ hact) hheadact hsortact
    have hsortset : sortedScans (s.column_scans.set
        ((s.active_scan + 1) % s.column_scans.length)
        ((s.column_scans.get ⟨(s.active_scan + 1) % s.column_scans.length, ha⟩).seek m)) := by
      intro c hc
      rcases List.mem_or_eq_of_mem_set hc with hc2 | rfl
      · exact hsort c hc2
      · show List.Sorted (· < ·) ((s.column_scans.get
          ⟨(s.active_scan + 1) % s.column_scans.length, ha⟩).seek m).data
        rw [GenericColumnScan.data_seek]
        exact hsort _ (List.get_mem _ _ ha)
    have hdataset : ∀ i (hi : i < s.column_scans.length)
        (hi3 : i < (s.column_scans.set ((s.active_scan + 1) % s.column_scans.length)
          ((s.column_scans.get ⟨(s.active_scan + 1) % s.column_scans.length, ha⟩).seek m)).length),
        ((s.column_scans.set ((s.active_scan + 1) % s.column_scans.length)
          ((s.column_scans.get ⟨(s.active_scan + 1) % s.column_scans.length, ha⟩).seek m)).get
            ⟨i, hi3⟩).data = (s.column_scans.get ⟨i, hi⟩).data := by
      intro i hi hi3
      by_cases hia : i = (s.active_scan + 1) % s.column_scans.length
      · subst hia
        rw [List.get_set_eq]
        rfl
      · rw [List.get_set_ne (fun hh => hia hh.symm)]
    rw [next_loop]
    rcases hstep : loopStep s matched with r | ⟨s2, matched2⟩
    · -- the loop returns this iteration
      dsimp only
      have hstep2 := hstep
      have hne0 : (s.column_scans.length = 0) = False := eq_false (by omega)
      simp only [loopStep, hne0, if_false, Bool.false_eq_true] at hstep2
      rw [hmax, List.get?_eq_get ha] at hstep2
      dsimp only at hstep2
      by_cases hcur : ((s.column_scans.get
          ⟨(s.active_scan + 1) % s.column_scans.length, ha⟩).seek m).current = some m
      · rw [if_pos hcur] at hstep2
        by_cases hfull : matched + 1 = s.column_scans.length
        · -- all scans matched: emit `m`
          rw [if_pos hfull] at hstep2
          simp only [Sum.inl.injEq] at hstep2
          subst hstep2
          have hprepos : ∀ i (hi : i < s.column_scans.length),
              i ≠ (s.active_scan + 1) % s.column_scans.length →
              (s.column_scans.get ⟨i, hi⟩).positionedAt m := by
            intro i hi hne
            apply hpos i hi
            have h1 : rotDist s.column_scans.length s.active_scan i < s.column_scans.length :=
              rotDist_lt hn0
            have h2 : rotDist s.column_scans.length s.active_scan i
                ≠ s.column_scans.length - 1 :=
              fun hh => hne (rotDist_eq_pred hact hi hh)
            omega
          have hmemall : ∀ c ∈ s.column_scans, m ∈ c.remaining := by
            apply mem_of_forall_get
            intro i hi
            by_cases hia : i = (s.active_scan + 1) % s.column_scans.length
            · subst hia
              have hfind := GenericColumnScan.current_seek
                (s.column_scans.get ⟨(s.active_scan + 1) % s.column_scans.length, ha⟩) m
              rw [hcur] at hfind
              exact List.mem_of_find?_eq_some hfind.symm
            · exact mem_of_head?_eq
                (GenericColumnScan.remaining_of_positionedAt (hprepos i hi hia))
          have hminall : ∀ x ∈ commonScans s.column_scans, m ≤ x := by
            intro x hx
            exact hgeact x (mem_all_of_mem_commonScans hx _ (List.get_mem _ _ hact))
          have hheadcom : (commonScans s.column_scans).head? = some m :=
            commonScans_head_eq hsort hmemall hminall
              (by intro hh; rw [hh] at hn; simp at hn)
          refine ⟨_, by rw [hheadcom], by simp, by simpa using ha, hcommon, hdataset, ?_⟩
          rw [hheadcom]
          refine ⟨rfl, rfl, ?_⟩
          intro i hi3
          have hi : i < s.column_scans.length := by simpa using hi3
          by_cases hia : i = (s.active_scan + 1) % s.column_scans.length
          · subst hia
            rw [List.get_set_eq]
            exact GenericColumnScan.positionedAt_seek hcur
          · rw [List.get_set_ne (fun hh => hia hh.symm)]
            exact hprepos i hi hia
        · -- a further scan matched: continue the loop
          rw [if_neg hfull] at hstep2
          simp at hstep2
      · rw [if_neg hcur] at hstep2
        rcases hc2 : ((s.column_scans.get
            ⟨(s.active_scan + 1) % s.column_scans.length, ha⟩).seek m).current with _ | v
        · -- the seeked scan is exhausted: the common list is empty
          rw [hc2] at hstep2
          dsimp only at hstep2
          simp only [Sum.inl.injEq] at hstep2
          subst hstep2
          have hempty : ((s.column_scans.get
              ⟨(s.active_scan + 1) % s.column_scans.length, ha⟩).seek m).remaining = [] := by
            rw [← List.head?_eq_none_iff, ← GenericColumnScan.current_seek_eq_head]
            exact hc2
          have hlt : ∀ x ∈ (s.column_scans.get
              ⟨(s.active_scan + 1) % s.column_scans.length, ha⟩).remaining, x < m := by
            have hdw := GenericColumnScan.remaining_seek
              (s.column_scans.get ⟨(s.active_scan + 1) % s.column_scans.length, ha⟩) m
            rw [hempty] at hdw
            intro x hx
            exact of_decide_eq_true (List.dropWhile_eq_nil_iff.mp hdw.symm x hx)
          have hnil : commonScans s.column_scans = [] :=
            commonScans_eq_nil_of_conflict (List.get_mem _ _ ha) (List.get_mem _ _ hact)
              hlt hgeact
          refine ⟨{ column_scans := s.column_scans.set
                      ((s.active_scan + 1) % s.column_scans.length)
                      ((s.column_scans.get
                        ⟨(s.active_scan + 1) % s.column_scans.length, ha⟩).seek m),
                    active_scan := (s.active_scan + 1) % s.column_scans.length,
                    active_max := none, current := none },
                  ?_, ?_, ?_, ?_, hdataset, ?_⟩
          · rw [hnil]
            simp
          · simp [List.length_set]
          · dsimp only
            rw [List.length_set]
            exact ha
          · exact hcommon
          · rw [hnil]
            rfl
        · rw [hc2] at hstep2
          dsimp only at hstep2
          simp at hstep2
    · -- the loop continues: apply the induction hypothesis
      dsimp only
      have hdec := loopStep_inr hn hmn hstep
      obtain ⟨hlen2, hk2, hmeas2⟩ := hdec
      have hstep2 := hstep
      have hne0 : (s.column_scans.length = 0) = False := eq_false (by omega)
      simp only [loopStep, hne0, if_false, Bool.false_eq_true] at hstep2
      rw [hmax, List.get?_eq_get ha] at hstep2
      dsimp only at hstep2
      by_cases hcur : ((s.column_scans.get
          ⟨(s.active_scan + 1) % s.column_scans.length, ha⟩).seek m).current = some m
      · rw [if_pos hcur] at hstep2
        by_cases hfull : matched + 1 = s.column_scans.length
        · rw [if_pos hfull] at hstep2; simp at hstep2
        · rw [if_neg hfull] at hstep2
          simp only [Sum.inr.injEq, Prod.mk.injEq] at hstep2
          obtain ⟨hs2, hk2e⟩ := hstep2
          subst hs2; subst hk2e
          have hposnew : ∀ i (hi : i < (s.column_scans.set
              ((s.active_scan + 1) % s.column_scans.length)
              ((s.column_scans.get ⟨(s.active_scan + 1) % s.column_scans.length, ha⟩).seek m)).length),
              rotDist (s.column_scans.set ((s.active_scan + 1) % s.column_scans.length)
                ((s.column_scans.get ⟨(s.active_scan + 1) % s.column_scans.length, ha⟩).seek m)).length
                ((s.active_scan + 1) % s.column_scans.length) i < matched + 1 →
              (((s.column_scans.set ((s.active_scan + 1) % s.column_scans.length)
                ((s.column_scans.get ⟨(s.active_scan + 1) % s.column_scans.length, ha⟩).seek m)).get
                  ⟨i, hi⟩)).positionedAt m := by
            intro i hi hrot
            rw [List.length_set] at hi hrot
            by_cases hia : i = (s.active_scan + 1) % s.column_scans.length
            · subst hia
              rw [List.get_set_eq]
              exact GenericColumnScan.positionedAt_seek hcur
            · rw [List.get_set_ne (fun hh => hia hh.symm)]
              apply hpos i hi
              rw [rotDist_succ_ne hact hi hia] at hrot
              omega
          have hcall := ih { column_scans := s.column_scans.set
                              ((s.active_scan + 1) % s.column_scans.length)
                              ((s.column_scans.get
                                ⟨(s.active_scan + 1) % s.column_scans.length, ha⟩).seek m),
                             active_scan := (s.active_scan + 1) % s.column_scans.length,
                             active_max := some m, current := s.current } (matched + 1) m
          obtain ⟨s3, hres, hlen3, hact3, hcom3, hdata3, hpost3⟩ :=
            hcall (Nat.lt_of_lt_of_le hmeas2 (by omega))
              (by dsimp only; rw [List.length_set]; omega)
              (by dsimp only; rw [List.length_set]; exact ha) rfl (by omega)
              (by dsimp only; rw [List.length_set]; omega) hsortset hposnew
          refine ⟨s3, ?_, ?_, hact3, ?_, ?_, ?_⟩
          · rw [hres, hcommon]
          · rw [hlen3, List.length_set]
          · rw [hcom3, hcommon]
          · intro i hi hi3
            have hi2 : i < (s.column_scans.set ((s.active_scan + 1) % s.column_scans.length)
                ((s.column_scans.get ⟨(s.active_scan + 1) % s.column_scans.length, ha⟩).seek m)).length := by
              rw [List.length_set]; exact hi
            rw [hdata3 i hi2 hi3, hdataset i hi hi2]
          · rw [← hcommon]
            exact hpost3
      · rw [if_neg hcur] at hstep2
        rcases hc2 : ((s.column_scans.get
            ⟨(s.active_scan + 1) % s.column_scans.length, ha⟩).seek m).current with _ | v
        · rw [hc2] at hstep2
          dsimp only at hstep2
          simp at hstep2
        · rw [hc2] at hstep2
          dsimp only at hstep2
          simp only [Sum.inr.injEq, Prod.mk.injEq] at hstep2
          obtain ⟨hs2, hk2e⟩ := hstep2
          subst hs2; subst hk2e
          have hposnew : ∀ i (hi : i < (s.column_scans.set
              ((s.active_scan + 1) % s.column_scans.length)
              ((s.column_scans.get ⟨(s.active_scan + 1) % s.column_scans.length, ha⟩).seek m)).length),
              rotDist (s.column_scans.set ((s.active_scan + 1) % s.column_scans.length)
                ((s.column_scans.get ⟨(s.active_scan + 1) % s.column_scans.length, ha⟩).seek m)).length
                ((s.active_scan + 1) % s.column_scans.length) i < 1 →
              (((s.column_scans.set ((s.active_scan + 1) % s.column_scans.length)
                ((s.column_scans.get ⟨(s.active_scan + 1) % s.column_scans.length, ha⟩).seek m)).get
                  ⟨i, hi⟩)).positionedAt v := by
            intro i hi hrot
            rw [List.length_set] at hi hrot
            have hia : i = (s.active_scan + 1) % s.column_scans.length :=
              rotDist_eq_zero hn0 ha hi (by omega)
            subst hia
            rw [List.get_set_eq]
            exact GenericColumnScan.positionedAt_seek hc2
          have hcall := ih { column_scans := s.column_scans.set
                              ((s.active_scan + 1) % s.column_scans.length)
                              ((s.column_scans.get
                                ⟨(s.active_scan + 1) % s.column_scans.length, ha⟩).seek m),
                             active_scan := (s.active_scan + 1) % s.column_scans.length,
                             active_max := some v, current := s.current } 1 v
          obtain ⟨s3, hres, hlen3, hact3, hcom3, hdata3, hpost3⟩ :=
            hcall (Nat.lt_of_lt_of_le hmeas2 (by omega))
              (by dsimp only; rw [List.length_set]; omega)
              (by dsimp only; rw [List.length_set]; exact ha) rfl (by omega)
              (by dsimp only; rw [List.length_set]; omega) hsortset hposnew
          refine ⟨s3, ?_, ?_, hact3, ?_, ?_, ?_⟩
          · rw [hres, hcommon]
          · rw [hlen3, List.length_set]
          · rw [hcom3, hcommon]
          · intro i hi hi3
            have hi2 : i < (s.column_scans.set ((s.active_scan + 1) % s.column_scans.length)
                ((s.column_scans.get ⟨(s.active_scan + 1) % s.column_scans.length, ha⟩).seek m)).length := by
              rw [List.length_set]; exact hi
            rw [hdata3 i hi2 hi3, hdataset i hi hi2]
          · rw [← hcommon]
            exact hpost3

/-- Specialisation of `next_loop_correct` to the loop entry reached from
`next` or `seek`: the active scan has just been advanced to `m1` and the
match count is 1. -/
theorem loop_after_advance (s : OrderedMergeJoin) (sc2 : GenericColumnScan) (m1 : Int)
    (hact : s.active_scan < s.column_scans.length)
    (hn2 : 2 ≤ s.column_scans.length)
    (hsort2 : sortedScans (s.column_scans.set s.active_scan sc2))
    (hpos2 : sc2.positionedAt m1) :
    ∃ s3,
      next_loop (loopMeasure (OrderedMergeJoin.mk (s.column_scans.set s.active_scan sc2)
          s.active_scan (some m1) s.current) 1 + 1)
        (OrderedMergeJoin.mk (s.column_scans.set s.active_scan sc2)
          s.active_scan (some m1) s.current) 1
        = .ok ((commonScans (s.column_scans.set s.active_scan sc2)).head?, s3) ∧
      s3.column_scans.length = s.column_scans.length ∧
      s3.active_scan < s3.column_scans.length ∧
      sortedScans s3.column_scans ∧
      commonScans s3.column_scans = commonScans (s.column_scans.set s.active_scan sc2) ∧
      (∀ w, (commonScans (s.column_scans.set s.active_scan sc2)).head? = some w →
        positionedAll s3.column_scans w) := by
  have hcall := next_loop_correct
    (loopMeasure (OrderedMergeJoin.mk (s.column_scans.set s.active_scan sc2)
        s.active_scan (some m1) s.current) 1 + 1)
    (OrderedMergeJoin.mk (s.column_scans.set s.active_scan sc2)
      s.active_scan (some m1) s.current) 1 m1
  obtain ⟨s3, hres, hlen3, hact3, hcom3, hdata3, hpost3⟩ :=
    hcall (by omega) (by dsimp only; rw [List.length_set]; omega)
      (by dsimp only; rw [List.length_set]; exact hact) rfl (by omega)
      (by dsimp only; rw [List.length_set]; omega) hsort2
      (by
        intro i hi hrot
        dsimp only at hi hrot
        rw [List.length_set] at hi hrot
        have hia : i = s.active_scan := rotDist_eq_zero (by omega) hact hi (by omega)
        subst hia
        show ((s.column_scans.set s.active_scan sc2).get ⟨s.active_scan, by
          rw [List.length_set]; exact hact⟩).positionedAt m1
        rw [List.get_set_eq]
        exact hpos2)
  have hlen3' : s3.column_scans.length = s.column_scans.length := by
    rw [hlen3]
    dsimp only
    rw [List.length_set]
  refine ⟨s3, hres, hlen3', hact3, ?_, hcom3, ?_⟩
  · apply @sortedScans_of_data_eq (s.column_scans.set s.active_scan sc2) _
      (by rw [hlen3]) _ hsort2
    intro i hi hi'
    exact hdata3 i hi hi'
  · intro w hw
    rw [hw] at hpost3
    exact hpost3.2.2

/-- One `next` call of the drain: from a fresh join or from a state positioned
at the previous emission, `next` returns the head of the pending list `P` and,
on a successful emission, leaves a state positioned at the emitted value whose
common list is exactly `P`. -/
theorem next_drain_step {s : OrderedMergeJoin} {P : List Int}
    (hact : s.active_scan < s.column_scans.length)
    (hsort : sortedScans s.column_scans)
    (hcase : ((∀ c ∈ s.column_scans, c.idx = none) ∧ P = commonScans s.column_scans)
      ∨ (∃ v, positionedAll s.column_scans v ∧ P = (commonScans s.column_scans).tail)) :
    ∃ s2, next s = .ok (P.head?, s2) ∧
      ∀ w, P.head? = some w →
        s2.column_scans.length = s.column_scans.length ∧
        s2.active_scan < s2.column_scans.length ∧
        sortedScans s2.column_scans ∧
        positionedAll s2.column_scans w ∧
        commonScans s2.column_scans = P := by
  have hn0 : 0 < s.column_scans.length := by omega
  have hsort2 : sortedScans (s.column_scans.set s.active_scan
      ((s.column_scans.get ⟨s.active_scan, hact⟩).next)) := by
    intro c hc
    rcases List.mem_or_eq_of_mem_set hc with hc2 | rfl
    · exact hsort c hc2
    · show List.Sorted (· < ·) ((s.column_scans.get ⟨s.active_scan, hact⟩).next).data
      rw [GenericColumnScan.data_next]
      exact hsort _ (List.get_mem _ _ hact)
  have hposset : ∀ m1, ((s.column_scans.get ⟨s.active_scan, hact⟩).next).current = some m1 →
      positionedAll (s.column_scans.set s.active_scan
        ((s.column_scans.get ⟨s.active_scan, hact⟩).next)) m1 → True := fun _ _ _ => trivial
  clear hposset
  simp only [next, List.get?_eq_get hact]
  rcases hcase with ⟨hfresh, hP⟩ | ⟨v, hpos, hP⟩
  · -- fresh join
    have hidx : (s.column_scans.get ⟨s.active_scan, hact⟩).idx = none :=
      hfresh _ (List.get_mem _ _ hact)
    have hcur2 : ((s.column_scans.get ⟨s.active_scan, hact⟩).next).current
        = (s.column_scans.get ⟨s.active_scan, hact⟩).remaining.head? :=
      GenericColumnScan.current_next_of_fresh hidx
    have hcommon2 : commonScans (s.column_scans.set s.active_scan
        ((s.column_scans.get ⟨s.active_scan, hact⟩).next)) = commonScans s.column_scans := by
      apply commonScans_congr (List.length_set _ _ _)
      intro i hi hi'
      by_cases hia : i = s.active_scan
      · subst hia
        rw [List.get_set_eq]
        exact GenericColumnScan.remaining_next_of_fresh hidx
      · rw [List.get_set_ne (fun hh => hia hh.symm)]
    rcases hr : (s.column_scans.get ⟨s.active_scan, hact⟩).remaining.head? with _ | m1
    · have hc : ((s.column_scans.get ⟨s.active_scan, hact⟩).next).current = none := by
        rw [hcur2, hr]
      rw [hc]
      have hPnil : P = [] := by
        rw [hP]
        exact commonScans_eq_nil_of_empty (List.get_mem _ _ hact)
          (List.head?_eq_none_iff.mp hr)
      exact ⟨_, by rw [hPnil]; rfl, by intro w hw; rw [hPnil] at hw; simp at hw⟩
    · have hc : ((s.column_scans.get ⟨s.active_scan, hact⟩).next).current = some m1 := by
        rw [hcur2, hr]
      rw [hc]
      dsimp only
      by_cases hn2 : 1 < s.column_scans.length
      · rw [if_pos hn2]
        obtain ⟨s3, hres, hlen3, hact3, hsort3, hcom3, hposw⟩ :=
          loop_after_advance s ((s.column_scans.get ⟨s.active_scan, hact⟩).next) m1 hact
            (by omega) hsort2 (GenericColumnScan.positionedAt_next hc)
        have hPcom : (commonScans (s.column_scans.set s.active_scan
            ((s.column_scans.get ⟨s.active_scan, hact⟩).next))).head? = P.head? := by
          rw [hcommon2, ← hP]
        refine ⟨s3, ?_, ?_⟩
        · rw [hres, hPcom]
        · intro w hw
          have hw2 : (commonScans (s.column_scans.set s.active_scan
              ((s.column_scans.get ⟨s.active_scan, hact⟩).next))).head? = some w := by
            rw [hPcom]; exact hw
          exact ⟨hlen3, hact3, hsort3, hposw w hw2, by rw [hcom3, hcommon2, ← hP]⟩
      · rw [if_neg hn2]
        have hlen1 : s.column_scans.length = 1 := by omega
        have hones : commonScans s.column_scans
            = (s.column_scans.get ⟨s.active_scan, hact⟩).remaining := by
          have hfin : (⟨0, hn0⟩ : Fin s.column_scans.length) = ⟨s.active_scan, hact⟩ := by
            simp only [Fin.mk.injEq]
            omega
          rw [commonScans_of_length_one hlen1 hn0, hfin]
        have hPhead : P.head? = some m1 := by
          rw [hP, hones]; exact hr
        refine ⟨_, by rw [hPhead], ?_⟩
        intro w hw
        have hwm : w = m1 := by rw [hPhead] at hw; exact (Option.some.injEq _ _).mp hw.symm
        subst hwm
        refine ⟨by dsimp only; rw [List.length_set], by dsimp only; rw [List.length_set]; exact hact,
          hsort2, ?_, by dsimp only; rw [hcommon2, ← hP]⟩
        intro i hi
        dsimp only at hi
        rw [List.length_set] at hi
        have hia : i = s.active_scan := by omega
        subst hia
        rw [List.get_set_eq]
        exact GenericColumnScan.positionedAt_next hc
  · -- positioned at the previous emission
    obtain ⟨i0, hidx, hgv⟩ := hpos s.active_scan hact
    have hcur2 : ((s.column_scans.get ⟨s.active_scan, hact⟩).next).current
        = (s.column_scans.get ⟨s.active_scan, hact⟩).remaining.tail.head? :=
      GenericColumnScan.current_next_of_idx hidx
    have htail : commonScans (s.column_scans.set s.active_scan
        ((s.column_scans.get ⟨s.active_scan, hact⟩).next))
        = (commonScans s.column_scans).tail :=
      commonScans_set_next_tail hact hsort hpos
    have hnnil : s.column_scans ≠ [] := by
      intro hh
      rw [hh] at hn0
      simp at hn0
    have hcomhead : (commonScans s.column_scans).head? = some v :=
      commonScans_head_of_positionedAll hsort hpos hnnil
    have hscrem : (s.column_scans.get ⟨s.active_scan, hact⟩).remaining.head? = some v :=
      GenericColumnScan.remaining_of_positionedAt ⟨i0, hidx, hgv⟩
    rcases hr : (s.column_scans.get ⟨s.active_scan, hact⟩).remaining.tail.head? with _ | m1
    · have hc : ((s.column_scans.get ⟨s.active_scan, hact⟩).next).current = none := by
        rw [hcur2, hr]
      rw [hc]
      have hPnil : P = [] := by
        rw [hP]
        rw [List.eq_nil_iff_forall_not_mem]
        intro x hx
        have hx1 : x ∈ commonScans s.column_scans := (List.tail_sublist _).subset hx
        have hx2 : x ∈ (s.column_scans.get ⟨s.active_scan, hact⟩).remaining :=
          mem_all_of_mem_commonScans hx1 _ (List.get_mem _ _ hact)
        have hgt : v < x := sorted_tail_gt (commonScans_sorted hsort) hcomhead x hx
        rw [eq_cons_of_head? hscrem, List.head?_eq_none_iff.mp hr] at hx2
        rcases List.mem_cons.mp hx2 with rfl | hx3
        · exact absurd hgt (lt_irrefl _)
        · cases hx3
      exact ⟨_, by rw [hPnil]; rfl, by intro w hw; rw [hPnil] at hw; simp at hw⟩
    · have hc : ((s.column_scans.get ⟨s.active_scan, hact⟩).next).current = some m1 := by
        rw [hcur2, hr]
      rw [hc]
      dsimp only
      by_cases hn2 : 1 < s.column_scans.length
      · rw [if_pos hn2]
        obtain ⟨s3, hres, hlen3, hact3, hsort3, hcom3, hposw⟩ :=
          loop_after_advance s ((s.column_scans.get ⟨s.active_scan, hact⟩).next) m1 hact
            (by omega) hsort2 (GenericColumnScan.positionedAt_next hc)
        have hPcom : (commonScans (s.column_scans.set s.active_scan
            ((s.column_scans.get ⟨s.active_scan, hact⟩).next))).head? = P.head? := by
          rw [htail, ← hP]
        refine ⟨s3, ?_, ?_⟩
        · rw [hres, hPcom]
        · intro w hw
          have hw2 : (commonScans (s.column_scans.set s.active_scan
              ((s.column_scans.get ⟨s.active_scan, hact⟩).next))).head? = some w := by
            rw [hPcom]; exact hw
          exact ⟨hlen3, hact3, hsort3, hposw w hw2, by rw [hcom3, htail, ← hP]⟩
      · rw [if_neg hn2]
        have hlen1 : s.column_scans.length = 1 := by omega
        have hones : commonScans s.column_scans
            = (s.column_scans.get ⟨s.active_scan, hact⟩).remaining := by
          have hfin : (⟨0, hn0⟩ : Fin s.column_scans.length) = ⟨s.active_scan, hact⟩ := by
            simp only [Fin.mk.injEq]
            omega
          rw [commonScans_of_length_one hlen1 hn0, hfin]
        have hPhead : P.head? = some m1 := by
          rw [hP, hones]
          rw [eq_cons_of_head? hscrem]
          exact hr
        refine ⟨_, by rw [hPhead], ?_⟩
        intro w hw
        have hwm : w = m1 := by rw [hPhead] at hw; exact (Option.some.injEq _ _).mp hw.symm
        subst hwm
        refine ⟨by dsimp only; rw [List.length_set], by dsimp only; rw [List.length_set]; exact hact,
          hsort2, ?_, by dsimp only; rw [htail, ← hP]⟩
        intro i hi
        dsimp only at hi
        rw [List.length_set] at hi
        have hia : i = s.active_scan := by omega
        subst hia
        rw [List.get_set_eq]
        exact GenericColumnScan.positionedAt_next hc

/-- Draining the join: from a fresh join or a positioned state, repeated
`next` calls yield exactly the pending list `P`. -/
theorem drain_correct :
    ∀ (P : List Int) (s : OrderedMergeJoin),
    s.active_scan < s.column_scans.length →
    sortedScans s.column_scans →
    (((∀ c ∈ s.column_scans, c.idx = none) ∧ P = commonScans s.column_scans)
      ∨ (∃ v, positionedAll s.column_scans v ∧ P = (commonScans s.column_scans).tail)) →
    ∀ steps, P.length + 1 ≤ steps → drain steps s = P := by
  intro P
  induction P with
  | nil =>
    intro s hact hsort hcase steps hsteps
    rcases steps with _ | steps
    · omega
    rw [drain]
    obtain ⟨s2, hnext, _⟩ := next_drain_step hact hsort hcase
    have hnext2 : next s = .ok (none, s2) := hnext
    rw [hnext2]
  | cons v2 P2 ih =>
    intro s hact hsort hcase steps hsteps
    rcases steps with _ | steps
    · omega
    rw [drain]
    obtain ⟨s2, hnext, hpost⟩ := next_drain_step hact hsort hcase
    have hnext2 : next s = .ok (some v2, s2) := hnext
    rw [hnext2]
    obtain ⟨hlen2, hact2, hsort2, hpos2, hcom2⟩ := hpost v2 rfl
    dsimp only
    congr 1
    apply ih s2 hact2 hsort2 (Or.inr ⟨v2, hpos2, by rw [hcom2]; rfl⟩) steps
      (by simp only [List.length_cons] at hsteps; omega)

/-- `seek` on a fresh join returns the least common value at or above the
target, i.e. the head of the common list cut at the target. -/
theorem seek_fresh (scans : List GenericColumnScan) (am : Option Int) (cur : Option Int)
    (t : Int) (h0 : 0 < scans.length) (hsort : sortedScans scans)
    (hfresh : ∀ c ∈ scans, c.idx = none) :
    ∃ s2, seek (OrderedMergeJoin.mk scans 0 am cur) t
      = .ok (((commonScans scans).dropWhile (fun v => decide (v < t))).head?, s2) := by
  have hsc : (OrderedMergeJoin.mk scans 0 am cur).column_scans.get? 0 = some (scans.get ⟨0, h0⟩) :=
    List.get?_eq_get h0
  have hsorted0 : List.Sorted (· < ·) (scans.get ⟨0, h0⟩).remaining :=
    GenericColumnScan.sorted_remaining (hsort _ (List.get_mem _ _ _))
  have hcut := commonScans_set_zero_seek h0 t hsorted0
  simp only [seek, hsc]
  rcases hr : ((scans.get ⟨0, h0⟩).seek t).current with _ | m1
  · -- no value at or above the target in the base scan
    dsimp only
    have hemp : ((scans.get ⟨0, h0⟩).seek t).remaining = [] := by
      rw [← List.head?_eq_none_iff, ← GenericColumnScan.current_seek_eq_head]
      exact hr
    have hnil : (commonScans scans).dropWhile (fun v => decide (v < t)) = [] := by
      rw [List.dropWhile_eq_nil_iff]
      intro x hx
      have hx0 : x ∈ (scans.get ⟨0, h0⟩).remaining :=
        mem_all_of_mem_commonScans hx _ (List.get_mem _ _ h0)
      have hdw := GenericColumnScan.remaining_seek (scans.get ⟨0, h0⟩) t
      rw [hemp] at hdw
      exact List.dropWhile_eq_nil_iff.mp hdw.symm x hx0
    exact ⟨_, by rw [hnil]; rfl⟩
  · dsimp only
    by_cases hn2 : 1 < scans.length
    · rw [if_pos hn2]
      obtain ⟨s3, hres, _, _, _, _, _⟩ :=
        loop_after_advance (OrderedMergeJoin.mk scans 0 am cur) ((scans.get ⟨0, h0⟩).seek t)
          m1 (by simpa using h0) (by simpa using hn2)
          (by
            intro c hc
            rcases List.mem_or_eq_of_mem_set hc with hc2 | rfl
            · exact hsort c hc2
            · show List.Sorted (· < ·) ((scans.get ⟨0, h0⟩).seek t).data
              rw [GenericColumnScan.data_seek]
              exact hsort _ (List.get_mem _ _ h0))
          (GenericColumnScan.positionedAt_seek hr)
      have hres2 : next_loop
          (loopMeasure (OrderedMergeJoin.mk (scans.set 0 ((scans.get ⟨0, h0⟩).seek t))
            0 (some m1) cur) 1 + 1)
          (OrderedMergeJoin.mk (scans.set 0 ((scans.get ⟨0, h0⟩).seek t)) 0 (some m1) cur) 1
          = .ok ((commonScans (scans.set 0 ((scans.get ⟨0, h0⟩).seek t))).head?, s3) := hres
      exact ⟨s3, by rw [hres2, hcut]⟩
    · rw [if_neg hn2]
      have hlen1 : scans.length = 1 := by omega
      have hones : commonScans scans = (scans.get ⟨0, h0⟩).remaining :=
        commonScans_of_length_one hlen1 h0
      have hhd : ((commonScans scans).dropWhile (fun v => decide (v < t))).head? = some m1 := by
        rw [hones, ← GenericColumnScan.remaining_seek,
          ← GenericColumnScan.current_seek_eq_head]
        exact hr
      exact ⟨_, by rw [hhd]⟩

theorem remaining_mk_none (l : List Int) :
    (GenericColumnScan.mk l none).remaining = l := rfl

theorem commonScans_new (columns : List (List Int)) :
    commonScans (columns.map (fun l => GenericColumnScan.mk l none)) = interList columns := by
  rw [commonScans_eq_interList]
  congr 1
  rw [List.map_map]
  induction columns with
  | nil => rfl
  | cons l rest ih =>
    rw [List.map_cons, ih]
    rfl

/-- A returning iteration of the matching loop sets `current` to the
returned value. -/
theorem loopStep_inl_ok_current {s : OrderedMergeJoin} {matched : Nat} {r : Option Int}
    {s2 : OrderedMergeJoin} (h : loopStep s matched = .inl (.ok (r, s2))) :
    s2.current = r := by
  unfold loopStep at h
  by_cases h0 : s.column_scans.length = 0
  · rw [if_pos h0] at h
    simp at h
  · rw [if_neg h0] at h
    rcases hmx : s.active_max with _ | m
    · rw [hmx] at h; simp at h
    rw [hmx] at h
    dsimp only at h
    rcases hget : s.column_scans.get? ((s.active_scan + 1) % s.column_scans.length) with _ | sc
    · rw [hget] at h; simp at h
    rw [hget] at h
    dsimp only at h
    by_cases hcur : (sc.seek m).current = some m
    · rw [if_pos hcur] at h
      by_cases hfull : matched + 1 = s.column_scans.length
      · rw [if_pos hfull] at h
        simp only [Sum.inl.injEq, Res.ok.injEq, Prod.mk.injEq] at h
        obtain ⟨h1, h2⟩ := h
        rw [← h2, ← h1]
      · rw [if_neg hfull] at h
        simp at h
    · rw [if_neg hcur] at h
      rcases hc2 : (sc.seek m).current with _ | v
      · rw [hc2] at h
        dsimp only at h
        simp only [Sum.inl.injEq, Res.ok.injEq, Prod.mk.injEq] at h
        obtain ⟨h1, h2⟩ := h
        rw [← h2, ← h1]
      · rw [hc2] at h
        dsimp only at h
        simp at h

/-- Whatever the matching loop returns, it sets `current` to the returned
value. -/
theorem next_loop_ok_current : ∀ (fuel : Nat) (s : OrderedMergeJoin) (matched : Nat)
    (r : Option Int) (s2 : OrderedMergeJoin),
    next_loop fuel s matched = .ok (r, s2) → s2.current = r := by
  intro fuel
  induction fuel with
  | zero =>
    intro s matched r s2 h
    cases h
  | succ fuel ih =>
    intro s matched r s2 h
    rw [next_loop] at h
    rcases hstep : loopStep s matched with rr | ⟨s3, k3⟩
    · rw [hstep] at h
      dsimp only at h
      subst h
      exact loopStep_inl_ok_current hstep
    · rw [hstep] at h
      dsimp only at h
      exact ih s3 k3 r s2 h

/-- An emitting return of the matching loop returns exactly the entry
`active_max`. -/
theorem loopStep_inl_ok_val {s : OrderedMergeJoin} {matched : Nat} {v : Int}
    {s2 : OrderedMergeJoin} (h : loopStep s matched = .inl (.ok (some v, s2))) :
    s.active_max = some v := by
  unfold loopStep at h
  by_cases h0 : s.column_scans.length = 0
  · rw [if_pos h0] at h
    simp at h
  · rw [if_neg h0] at h
    rcases hmx : s.active_max with _ | m
    · rw [hmx] at h; simp at h
    rw [hmx] at h
    dsimp only at h
    rcases hget : s.column_scans.get? ((s.active_scan + 1) % s.column_scans.length) with _ | sc
    · rw [hget] at h; simp at h
    rw [hget] at h
    dsimp only at h
    by_cases hcur : (sc.seek m).current = some m
    · rw [if_pos hcur] at h
      by_cases hfull : matched + 1 = s.column_scans.length
      · rw [if_pos hfull] at h
        simp only [Sum.inl.injEq, Res.ok.injEq, Prod.mk.injEq, Option.some.injEq] at h
        rw [h.1]
      · rw [if_neg hfull] at h
        simp at h
    · rw [if_neg hcur] at h
      rcases hc2 : (sc.seek m).current with _ | w
      · rw [hc2] at h
        dsimp only at h
        simp at h
      · rw [hc2] at h
        dsimp only at h
        simp at h

/-- A continuing iteration of the matching loop never decreases
`active_max`. -/
theorem loopStep_inr_val {s s2 : OrderedMergeJoin} {matched matched2 : Nat}
    (h : loopStep s matched = .inr (s2, matched2)) {m : Int}
    (hm : s.active_max = some m) :
    ∃ m2, s2.active_max = some m2 ∧ m ≤ m2 := by
  unfold loopStep at h
  by_cases h0 : s.column_scans.length = 0
  · rw [if_pos h0] at h
    simp at h
  · rw [if_neg h0] at h
    rw [hm] at h
    dsimp only at h
    rcases hget : s.column_scans.get? ((s.active_scan + 1) % s.column_scans.length) with _ | sc
    · rw [hget] at h; simp at h
    rw [hget] at h
    dsimp only at h
    by_cases hcur : (sc.seek m).current = some m
    · rw [if_pos hcur] at h
      by_cases hfull : matched + 1 = s.column_scans.length
      · rw [if_pos hfull] at h
        simp at h
      · rw [if_neg hfull] at h
        simp only [Sum.inr.injEq, Prod.mk.injEq] at h
        refine ⟨m, ?_, le_refl m⟩
        rw [← h.1]
    · rw [if_neg hcur] at h
      rcases hc2 : (sc.seek m).current with _ | v
      · rw [hc2] at h
        dsimp only at h
        simp at h
      · rw [hc2] at h
        dsimp only at h
        simp only [Sum.inr.injEq, Prod.mk.injEq] at h
        have hfind := GenericColumnScan.current_seek sc m
        rw [hc2] at hfind
        have hp := List.find?_some hfind.symm
        exact ⟨v, by rw [← h.1], by simpa using hp⟩

/-- The value returned by a successful matching loop is at least the entry
`active_max`. -/
theorem next_loop_ok_ge : ∀ (fuel : Nat) (s : OrderedMergeJoin) (matched : Nat)
    (m v : Int) (s2 : OrderedMergeJoin), s.active_max = some m →
    next_loop fuel s matched = .ok (some v, s2) → m ≤ v := by
  intro fuel
  induction fuel with
  | zero =>
    intro s matched m v s2 _ h
    cases h
  | succ fuel ih =>
    intro s matched m v s2 hm h
    rw [next_loop] at h
    rcases hstep : loopStep s matched with rr | ⟨s3, k3⟩
    · rw [hstep] at h
      dsimp only at h
      subst h
      have := loopStep_inl_ok_val hstep
      rw [hm] at this
      exact le_of_eq ((Option.some.injEq _ _).mp this)
    · rw [hstep] at h
      dsimp only at h
      obtain ⟨m2, hm2, hle⟩ := loopStep_inr_val hstep hm
      exact le_trans hle (ih s3 k3 m2 v s2 hm2 h)

/-- More fuel than needed does not change the result of the matching loop. -/
theorem next_loop_mono : ∀ (fuel fuel2 : Nat) (s : OrderedMergeJoin) (matched : Nat),
    fuel ≤ fuel2 → next_loop fuel s matched ≠ .more →
    next_loop fuel2 s matched = next_loop fuel s matched := by
  intro fuel
  induction fuel with
  | zero =>
    intro fuel2 s matched _ hne
    exact absurd rfl hne
  | succ fuel ih =>
    intro fuel2 s matched hle hne
    rcases fuel2 with _ | fuel2
    · omega
    rw [next_loop] at hne ⊢
    rw [next_loop]
    rcases hstep : loopStep s matched with r | ⟨s2, matched2⟩
    · rfl
    · rw [hstep] at hne
      exact ih fuel2 s2 matched2 (by omega) hne

theorem next_ok_some_current {s : OrderedMergeJoin} {v : Int} {s2 : OrderedMergeJoin}
    (hn : 2 ≤ s.column_scans.length) (h : next s = .ok (some v, s2)) :
    s2.current = some v := by
  unfold next at h
  rcases hget : s.column_scans.get? s.active_scan with _ | sc
  · rw [hget] at h; simp at h
  · rw [hget] at h
    dsimp only at h
    rcases hcur : sc.next.current with _ | m1
    · rw [hcur] at h
      dsimp only at h
      simp at h
    · rw [hcur] at h
      dsimp only at h
      rw [if_pos (by omega)] at h
      exact next_loop_ok_current _ _ _ _ _ h

theorem next_ok_none_current {s s2 : OrderedMergeJoin}
    (h : next s = .ok (none, s2)) : s2.current = none := by
  unfold next at h
  rcases hget : s.column_scans.get? s.active_scan with _ | sc
  · rw [hget] at h; simp at h
  · rw [hget] at h
    dsimp only at h
    rcases hcur : sc.next.current with _ | m1
    · rw [hcur] at h
      dsimp only at h
      simp only [Res.ok.injEq, Prod.mk.injEq] at h
      rw [← h.2]
    · rw [hcur] at h
      dsimp only at h
      by_cases hn2 : 1 < s.column_scans.length
      · rw [if_pos hn2] at h
        exact next_loop_ok_current _ _ _ _ _ h
      · rw [if_neg hn2] at h
        simp at h

theorem next_single_current {s : OrderedMergeJoin} {v : Int} {s2 : OrderedMergeJoin}
    (hn : s.column_scans.length = 1) (h : next s = .ok (some v, s2)) :
    s2.current = s.current := by
  unfold next at h
  rcases hget : s.column_scans.get? s.active_scan with _ | sc
  · rw [hget] at h; simp at h
  · rw [hget] at h
    dsimp only at h
    rcases hcur : sc.next.current with _ | m1
    · rw [hcur] at h
      dsimp only at h
      simp at h
    · rw [hcur] at h
      dsimp only at h
      rw [if_neg (by omega)] at h
      simp only [Res.ok.injEq, Prod.mk.injEq] at h
      rw [← h.2]

theorem seek_ok_some_current {s : OrderedMergeJoin} {t v : Int} {s2 : OrderedMergeJoin}
    (hn : 2 ≤ s.column_scans.length) (h : seek s t = .ok (some v, s2)) :
    s2.current = some v := by
  unfold seek at h
  rcases hget : s.column_scans.get? s.active_scan with _ | sc
  · rw [hget] at h; simp at h
  · rw [hget] at h
    dsimp only at h
    rcases hcur : (sc.seek t).current with _ | m1
    · rw [hcur] at h
      dsimp only at h
      simp at h
    · rw [hcur] at h
      dsimp only at h
      rw [if_pos (by omega)] at h
      exact next_loop_ok_current _ _ _ _ _ h

theorem seek_ok_none_current {s s2 : OrderedMergeJoin} {t : Int}
    (h : seek s t = .ok (none, s2)) : s2.current = none := by
  unfold seek at h
  rcases hget : s.column_scans.get? s.active_scan with _ | sc
  · rw [hget] at h; simp at h
  · rw [hget] at h
    dsimp only at h
    rcases hcur : (sc.seek t).current with _ | m1
    · rw [hcur] at h
      dsimp only at h
      simp only [Res.ok.injEq, Prod.mk.injEq] at h
      rw [← h.2]
    · rw [hcur] at h
      dsimp only at h
      by_cases hn2 : 1 < s.column_scans.length
      · rw [if_pos hn2] at h
        exact next_loop_ok_current _ _ _ _ _ h
      · rw [if_neg hn2] at h
        simp at h

theorem seek_single_current {s : OrderedMergeJoin} {t v : Int} {s2 : OrderedMergeJoin}
    (hn : s.column_scans.length = 1) (h : seek s t = .ok (some v, s2)) :
    s2.current = s.current := by
  unfold seek at h
  rcases hget : s.column_scans.get? s.active_scan with _ | sc
  · rw [hget] at h; simp at h
  · rw [hget] at h
    dsimp only at h
    rcases hcur : (sc.seek t).current with _ | m1
    · rw [hcur] at h
      dsimp only at h
      simp at h
    · rw [hcur] at h
      dsimp only at h
      rw [if_neg (by omega)] at h
      simp only [Res.ok.injEq, Prod.mk.injEq] at h
      rw [← h.2]

theorem next_ne_more (s : OrderedMergeJoin) : next s ≠ .more := by
  unfold next
  rcases hget : s.column_scans.get? s.active_scan with _ | sc
  · simp
  · dsimp only
    rcases hcur : sc.next.current with _ | m1
    · simp
    · dsimp only
      by_cases hn2 : 1 < s.column_scans.length
      · rw [if_pos hn2]
        apply next_loop_no_more
        · dsimp only; rw [List.length_set]; omega
        · dsimp only; rw [List.length_set]; omega
        · omega
      · rw [if_neg hn2]
        simp

theorem seek_ne_more (s : OrderedMergeJoin) (t : Int) : seek s t ≠ .more := by
  unfold seek
  rcases hget : s.column_scans.get? s.active_scan with _ | sc
  · simp
  · dsimp only
    rcases hcur : (sc.seek t).current with _ | m1
    · simp
    · dsimp only
      by_cases hn2 : 1 < s.column_scans.length
      · rw [if_pos hn2]
        apply next_loop_no_more
        · dsimp only; rw [List.length_set]; omega
        · dsimp only; rw [List.length_set]; omega
        · omega
      · rw [if_neg hn2]
        simp

end OrderedMergeJoin

section MergeJoinClaims

/-- C1: for every finite non-empty family of sorted, strictly ascending
sub-scans, repeatedly calling `next` on the `OrderedMergeJoin` scan until it
returns `None` yields exactly the set intersection of the sub-scans' value
sequences, in ascending order; in particular, for the columns A=[1,3,5,7,9],
B=[1,5,6,7,9,10], C=[1,2,3,4,5,6,7,8,9], draining the join yields
[1,5,7,9]. -/
theorem merge_join_drain_is_intersection :
    (∀ (columns : List (List Int)), columns ≠ [] →
      (∀ l ∈ columns, List.Sorted (· < ·) l) →
      ∀ steps, (interList columns).length + 1 ≤ steps →
      OrderedMergeJoin.drain steps (OrderedMergeJoin.new columns) = interList columns)
    ∧ OrderedMergeJoin.drain 5
        (OrderedMergeJoin.new [[1, 3, 5, 7, 9], [1, 5, 6, 7, 9, 10],
          [1, 2, 3, 4, 5, 6, 7, 8, 9]]) = [1, 5, 7, 9] := by
  constructor
  · intro columns hne hsort steps hsteps
    have hlen : (OrderedMergeJoin.new columns).column_scans.length = columns.length := by
      simp [OrderedMergeJoin.new]
    apply OrderedMergeJoin.drain_correct (interList columns) _ ?_ ?_ ?_ steps hsteps
    · rw [hlen]
      exact List.length_pos.mpr hne
    · intro c hc
      simp only [OrderedMergeJoin.new] at hc
      obtain ⟨l, hl, rfl⟩ := List.mem_map.mp hc
      exact hsort l hl
    · left
      constructor
      · intro c hc
        simp only [OrderedMergeJoin.new] at hc
        obtain ⟨l, _, rfl⟩ := List.mem_map.mp hc
        rfl
      · exact (OrderedMergeJoin.commonScans_new columns).symm
  · decide

theorem merge_join_drain_is_intersection_witness :
    OrderedMergeJoin.drain 5 (OrderedMergeJoin.new [[1, 3, 5, 7, 9], [1, 5, 6, 7, 9, 10],
      [1, 2, 3, 4, 5, 6, 7, 8, 9]]) = [1, 5, 7, 9] :=
  (merge_join_drain_is_intersection.1
    [[1, 3, 5, 7, 9], [1, 5, 6, 7, 9, 10], [1, 2, 3, 4, 5, 6, 7, 8, 9]]
    (by decide) (by decide) 5 (by decide)).trans (by decide)

/-- C3: for the `OrderedMergeJoin` scan over sorted strictly ascending
sub-scans, `seek t` on a fresh join returns the least value at or above `t`
common to all sub-scans, or `None` if no such value exists; for the S1
columns, on a fresh join `seek 8` returns 9 with `current = 9`, and a
subsequent `seek 10` returns `None`. -/
theorem merge_join_seek_least_common :
    (∀ (columns : List (List Int)) (t : Int), columns ≠ [] →
      (∀ l ∈ columns, List.Sorted (· < ·) l) →
      ∃ s2, OrderedMergeJoin.seek (OrderedMergeJoin.new columns) t
        = .ok (((interList columns).dropWhile (fun v => decide (v < t))).head?, s2))
    ∧ (OrderedMergeJoin.seek
          (OrderedMergeJoin.new [[1, 3, 5, 7, 9], [1, 5, 6, 7, 9, 10],
            [1, 2, 3, 4, 5, 6, 7, 8, 9]]) 8
        = .ok (some 9, OrderedMergeJoin.mk
            [GenericColumnScan.mk [1, 3, 5, 7, 9] (some 4),
             GenericColumnScan.mk [1, 5, 6, 7, 9, 10] (some 4),
             GenericColumnScan.mk [1, 2, 3, 4, 5, 6, 7, 8, 9] (some 8)] 2 (some 9) (some 9)))
    ∧ (OrderedMergeJoin.mk
        [GenericColumnScan.mk [1, 3, 5, 7, 9] (some 4),
         GenericColumnScan.mk [1, 5, 6, 7, 9, 10] (some 4),
         GenericColumnScan.mk [1, 2, 3, 4, 5, 6, 7, 8, 9] (some 8)] 2 (some 9)
          (some 9)).current = some 9
    ∧ (OrderedMergeJoin.seek (OrderedMergeJoin.mk
        [GenericColumnScan.mk [1, 3, 5, 7, 9] (some 4),
         GenericColumnScan.mk [1, 5, 6, 7, 9, 10] (some 4),
         GenericColumnScan.mk [1, 2, 3, 4, 5, 6, 7, 8, 9] (some 8)] 2 (some 9) (some 9)) 10
        = .ok (none, OrderedMergeJoin.mk
            [GenericColumnScan.mk [1, 3, 5, 7, 9] (some 4),
             GenericColumnScan.mk [1, 5, 6, 7, 9, 10] (some 4),
             GenericColumnScan.mk [1, 2, 3, 4, 5, 6, 7, 8, 9] (some 9)] 2 (some 9) none))
    ∧ (OrderedMergeJoin.mk
        [GenericColumnScan.mk [1, 3, 5, 7, 9] (some 4),
         GenericColumnScan.mk [1, 5, 6, 7, 9, 10] (some 4),
         GenericColumnScan.mk [1, 2, 3, 4, 5, 6, 7, 8, 9] (some 9)] 2 (some 9)
          none).current = none := by
  constructor
  · intro columns t hne hsort
    have h0 : 0 < columns.length := List.length_pos.mpr hne
    have h0m : 0 < (columns.map (fun l => GenericColumnScan.mk l none)).length := by
      simpa using h0
    obtain ⟨s2, hs2⟩ := OrderedMergeJoin.seek_fresh
      (columns.map (fun l => GenericColumnScan.mk l none)) none none t h0m
      (by
        intro c hc
        obtain ⟨l, hl, rfl⟩ := List.mem_map.mp hc
        exact hsort l hl)
      (by
        intro c hc
        obtain ⟨l, _, rfl⟩ := List.mem_map.mp hc
        rfl)
    refine ⟨s2, ?_⟩
    have heq : OrderedMergeJoin.seek (OrderedMergeJoin.new columns) t
        = OrderedMergeJoin.seek (OrderedMergeJoin.mk
          (columns.map (fun l => GenericColumnScan.mk l none)) 0 none none) t := rfl
    rw [heq, hs2, OrderedMergeJoin.commonScans_new]
  · exact ⟨by decide, rfl, by decide, rfl⟩

theorem merge_join_seek_least_common_witness :
    ∃ s2, OrderedMergeJoin.seek
      (OrderedMergeJoin.new [[1, 3, 5, 7, 9], [1, 5, 6, 7, 9, 10],
        [1, 2, 3, 4, 5, 6, 7, 8, 9]]) 8
      = .ok (((interList [[1, 3, 5, 7, 9], [1, 5, 6, 7, 9, 10],
          [1, 2, 3, 4, 5, 6, 7, 8, 9]]).dropWhile (fun v => decide (v < 8))).head?, s2) :=
  merge_join_seek_least_common.1
    [[1, 3, 5, 7, 9], [1, 5, 6, 7, 9, 10], [1, 2, 3, 4, 5, 6, 7, 8, 9]] 8
    (by decide) (by decide)

/-- C4 (amended): with two or more sub-scans, immediately after `next` or
`seek` returns `Some v`, `current` returns `Some v`; after `next` or `seek`
returns `None`, `current` returns `None` (for any number of sub-scans); with
exactly one sub-scan, a successful `next`/`seek` leaves `current`
unchanged. -/
theorem merge_join_current_after_step :
    (∀ (s : OrderedMergeJoin) (v : Int) (s2 : OrderedMergeJoin),
      2 ≤ s.column_scans.length →
      OrderedMergeJoin.next s = .ok (some v, s2) → s2.current = some v)
    ∧ (∀ (s s2 : OrderedMergeJoin),
      OrderedMergeJoin.next s = .ok (none, s2) → s2.current = none)
    ∧ (∀ (s : OrderedMergeJoin) (t v : Int) (s2 : OrderedMergeJoin),
      2 ≤ s.column_scans.length →
      OrderedMergeJoin.seek s t = .ok (some v, s2) → s2.current = some v)
    ∧ (∀ (s s2 : OrderedMergeJoin) (t : Int),
      OrderedMergeJoin.seek s t = .ok (none, s2) → s2.current = none)
    ∧ (∀ (s : OrderedMergeJoin) (v : Int) (s2 : OrderedMergeJoin),
      s.column_scans.length = 1 →
      OrderedMergeJoin.next s = .ok (some v, s2) → s2.current = s.current)
    ∧ (∀ (s : OrderedMergeJoin) (t v : Int) (s2 : OrderedMergeJoin),
      s.column_scans.length = 1 →
      OrderedMergeJoin.seek s t = .ok (some v, s2) → s2.current = s.current) :=
  ⟨fun _ _ _ hn h => OrderedMergeJoin.next_ok_some_current hn h,
   fun _ _ h => OrderedMergeJoin.next_ok_none_current h,
   fun _ _ _ _ hn h => OrderedMergeJoin.seek_ok_some_current hn h,
   fun _ _ _ h => OrderedMergeJoin.seek_ok_none_current h,
   fun _ _ _ hn h => OrderedMergeJoin.next_single_current hn h,
   fun _ _ _ _ hn h => OrderedMergeJoin.seek_single_current hn h⟩

theorem merge_join_current_after_step_witness :
    OrderedMergeJoin.next (OrderedMergeJoin.new [[(1 : Int), 2], [1, 2]])
      = .ok (some 1, OrderedMergeJoin.mk
          [GenericColumnScan.mk [1, 2] (some 0), GenericColumnScan.mk [1, 2] (some 0)]
          1 (some 1) (some 1)) ∧
    (OrderedMergeJoin.mk
      [GenericColumnScan.mk [1, 2] (some 0), GenericColumnScan.mk [1, 2] (some 0)]
      1 (some 1) (some 1)).current = some 1 :=
  ⟨by decide,
   merge_join_current_after_step.1 (OrderedMergeJoin.new [[(1 : Int), 2], [1, 2]]) 1
     (OrderedMergeJoin.mk
       [GenericColumnScan.mk [1, 2] (some 0), GenericColumnScan.mk [1, 2] (some 0)]
       1 (some 1) (some 1)) (by decide) (by decide)⟩

/-- C4 counterexample: with exactly one sub-scan, `next` returns `Some 1` but
`current` stays `None`, refuting the claim for joins of a single sub-scan. -/
theorem merge_join_current_after_step_counterexample :
    OrderedMergeJoin.next (OrderedMergeJoin.new [[(1 : Int)]])
      = .ok (some 1, OrderedMergeJoin.mk [GenericColumnScan.mk [1] (some 0)] 0 (some 1) none)
    ∧ (OrderedMergeJoin.mk [GenericColumnScan.mk [1] (some 0)] 0 (some 1) none).current
        = none
    ∧ (none : Option Int) ≠ some 1 := by
  refine ⟨by decide, rfl, by decide⟩

/-- C7: under the precondition that every sub-scan is sorted, strictly
ascending and finite, every call to `next` or `seek` terminates: with fuel
beyond the loop measure, the matching loop yields a fuel-independent result,
its `active_max` is monotonically non-decreasing, and `next`/`seek` never run
out of fuel. -/
theorem merge_join_terminates :
    (∀ (s : OrderedMergeJoin) (matched : Nat) (m : Int),
      sortedScans s.column_scans → 2 ≤ s.column_scans.length →
      matched < s.column_scans.length → s.active_max = some m →
      ∃ res, res ≠ .more ∧ ∀ fuel, OrderedMergeJoin.loopMeasure s matched < fuel →
        OrderedMergeJoin.next_loop fuel s matched = res)
    ∧ (∀ (fuel : Nat) (s : OrderedMergeJoin) (matched : Nat) (m v : Int)
        (s2 : OrderedMergeJoin), s.active_max = some m →
        OrderedMergeJoin.next_loop fuel s matched = .ok (some v, s2) → m ≤ v)
    ∧ (∀ s : OrderedMergeJoin, OrderedMergeJoin.next s ≠ .more)
    ∧ (∀ (s : OrderedMergeJoin) (t : Int), OrderedMergeJoin.seek s t ≠ .more) := by
  refine ⟨?_, ?_, OrderedMergeJoin.next_ne_more, OrderedMergeJoin.seek_ne_more⟩
  · intro s matched m _ hn hmn _
    refine ⟨OrderedMergeJoin.next_loop (OrderedMergeJoin.loopMeasure s matched + 1) s matched,
      OrderedMergeJoin.next_loop_no_more _ s matched hn hmn (by omega), ?_⟩
    intro fuel hfuel
    exact OrderedMergeJoin.next_loop_mono _ fuel s matched (by omega)
      (OrderedMergeJoin.next_loop_no_more _ s matched hn hmn (by omega))
  · intro fuel s matched m v s2 hm h
    exact OrderedMergeJoin.next_loop_ok_ge fuel s matched m v s2 hm h

theorem merge_join_terminates_witness :
    ∃ res, res ≠ Res.more ∧ ∀ fuel,
      OrderedMergeJoin.loopMeasure
        (OrderedMergeJoin.mk [GenericColumnScan.mk [1] (some 0),
          GenericColumnScan.mk [1] none] 0 (some 1) none) 1 < fuel →
      OrderedMergeJoin.next_loop fuel
        (OrderedMergeJoin.mk [GenericColumnScan.mk [1] (some 0),
          GenericColumnScan.mk [1] none] 0 (some 1) none) 1 = res :=
  merge_join_terminates.1
    (OrderedMergeJoin.mk [GenericColumnScan.mk [1] (some 0),
      GenericColumnScan.mk [1] none] 0 (some 1) none) 1 1
    (by
      intro c hc
      simp only [List.mem_cons, List.not_mem_nil, or_false] at hc
      rcases hc with rfl | rfl <;> decide)
    (by decide) (by decide) rfl

/-- C9: the constructor accepts an empty list of sub-scans, and the first call
to `next` or `seek` on such a join panics (models the out-of-bounds index on
the empty scan list) instead of returning `None`. -/
theorem merge_join_empty_panics :
    OrderedMergeJoin.new ([] : List (List Int)) = OrderedMergeJoin.mk [] 0 none none
    ∧ OrderedMergeJoin.next (OrderedMergeJoin.new ([] : List (List Int))) = .fatal
    ∧ ∀ t : Int, OrderedMergeJoin.seek (OrderedMergeJoin.new ([] : List (List Int))) t
        = .fatal :=
  ⟨rfl, rfl, fun _ => rfl⟩

end MergeJoinClaims

/-- State of `ColumnScanEqualColumn` from
`nemo-physical/src/columnar/operations/columnscan_equal_column.rs`: the
reference scan (only read), the value scan (advanced through its cell), and
the current value of the operator.  The `ColumnScanCell` wrappers are
modelled from the spec as plain scans whose mutation is threaded through the
state. -/
structure ColumnScanEqualColumn where
  reference_scan : GenericColumnScan
  value_scan : GenericColumnScan
  current_value : Option Int
deriving Repr, DecidableEq

namespace ColumnScanEqualColumn

/-- `ColumnScanEqualColumn::new`. -/
def new (reference_scan value_scan : GenericColumnScan) : ColumnScanEqualColumn :=
  { reference_scan := reference_scan, value_scan := value_scan, current_value := none }

/-- `Iterator::next` for `ColumnScanEqualColumn`: after a successful call the
next call returns `None`; otherwise seek the value scan to the reference's
current value and succeed exactly when it lands on it.  Returns the result
together with the mutated state. -/
def next (s : ColumnScanEqualColumn) : Option Int × ColumnScanEqualColumn :=
  if s.current_value.isSome then
    (none, { s with current_value := none })
  else
    match s.reference_scan.current with
    | none => (none, s)
    | some reference_value =>
      let vs2 := s.value_scan.seek reference_value
      match vs2.current with
      | some next_value =>
        if next_value = reference_value then
          (some next_value, { s with value_scan := vs2, current_value := some next_value })
        else
          (none, { s with value_scan := vs2, current_value := none })
      | none => (none, { s with value_scan := vs2, current_value := none })

/-- `ColumnScan::seek` for `ColumnScanEqualColumn`: `None` above the
reference's current value, otherwise behaves like `next`. -/
def seek (s : ColumnScanEqualColumn) (value : Int) : Option Int × ColumnScanEqualColumn :=
  match s.reference_scan.current with
  | none => (none, s)
  | some reference_value =>
    if reference_value < value then
      (none, { s with current_value := none })
    else
      next s

/-- `ColumnScan::current` for `ColumnScanEqualColumn`. -/
def current (s : ColumnScanEqualColumn) : Option Int := s.current_value

/-- `ColumnScan::reset` for `ColumnScanEqualColumn` (implemented in the
source: it clears the current value). -/
def reset (s : ColumnScanEqualColumn) : ColumnScanEqualColumn :=
  { s with current_value := none }

/-- `ColumnScan::pos` for `ColumnScanEqualColumn` is `unimplemented!`. -/
def pos (_s : ColumnScanEqualColumn) : Res (Option Nat) := .fatal

/-- `ColumnScan::narrow` for `ColumnScanEqualColumn` is `unimplemented!`. -/
def narrow (_s : ColumnScanEqualColumn) (_interval : Nat × Nat) : Res ColumnScanEqualColumn :=
  .fatal

end ColumnScanEqualColumn

/-- `ColumnScanPrune` from
`nemo-physical/src/columnar/operations/columnscan_prune.rs`.  Modelled from
the spec: the shared trie-scan state (`SharedTrieScanPruneState`, defined in
`tabular/operations/triescan_prune.rs`, which is not among the sources) is
irrelevant to the operations this development uses, all of which abort
unconditionally; the state is represented by the scan's column index and
reference scan. -/
structure ColumnScanPrune where
  column_scan_index : Nat
  reference_scan : GenericColumnScan
deriving Repr, DecidableEq

namespace ColumnScanPrune

/-- `ColumnScan::reset` for `ColumnScanPrune` is `unimplemented!`. -/
def reset (_s : ColumnScanPrune) : Res ColumnScanPrune := .fatal

/-- `ColumnScan::pos` for `ColumnScanPrune` is `unimplemented!`. -/
def pos (_s : ColumnScanPrune) : Res (Option Nat) := .fatal

/-- `ColumnScan::narrow` for `ColumnScanPrune` is `unimplemented!`. -/
def narrow (_s : ColumnScanPrune) (_interval : Nat × Nat) : Res ColumnScanPrune := .fatal

end ColumnScanPrune

namespace GenericColumnScan

theorem seek_seek_current (c : GenericColumnScan) (t : Int) :
    ((c.seek t).seek t).current = (c.seek t).current := by
  rw [current_seek_eq_head (c.seek t) t, current_seek_eq_head c t,
    remaining_seek (c.seek t) t, remaining_seek c t, dropWhile_dropWhile]

end GenericColumnScan

section EqualColumnClaims

/-- C2 (amended): the equality scan over a reference scan positioned at `r`
and a value scan yields `Some r` from its first `next` iff seeking the value
scan to `r` lands exactly on `r`; the immediately following `next` returns
`None` (a further `next` may return `Some r` again, since it re-seeks the
value scan); `seek v` returns `None` when `v > r` and otherwise behaves like
`next`.  In particular, with reference column [0,4,7] pre-seeked to 4 and
value column [1,4,8], `next` gives `Some 4` then `None`; with the reference
seeked to 7, `next` gives `None`. -/
theorem equal_column_scan_behaviour :
    (∀ (s : ColumnScanEqualColumn) (r : Int),
      s.current_value = none → s.reference_scan.current = some r →
      (ColumnScanEqualColumn.next s).1
        = (if (s.value_scan.seek r).current = some r then some r else none))
    ∧ (∀ (s : ColumnScanEqualColumn) (r : Int),
      s.current_value = none → s.reference_scan.current = some r →
      (ColumnScanEqualColumn.next (ColumnScanEqualColumn.next s).2).1 = none)
    ∧ (∀ (s : ColumnScanEqualColumn) (r v : Int),
      s.reference_scan.current = some r → r < v →
      ColumnScanEqualColumn.seek s v = (none, { s with current_value := none }))
    ∧ (∀ (s : ColumnScanEqualColumn) (r v : Int),
      s.reference_scan.current = some r → v ≤ r →
      ColumnScanEqualColumn.seek s v = ColumnScanEqualColumn.next s)
    ∧ ((ColumnScanEqualColumn.next (ColumnScanEqualColumn.new
        ((GenericColumnScan.mk [0, 4, 7] none).seek 4)
        (GenericColumnScan.mk [1, 4, 8] none))).1 = some 4)
    ∧ ((ColumnScanEqualColumn.next (ColumnScanEqualColumn.next
        (ColumnScanEqualColumn.new ((GenericColumnScan.mk [0, 4, 7] none).seek 4)
          (GenericColumnScan.mk [1, 4, 8] none))).2).1 = none)
    ∧ ((ColumnScanEqualColumn.next (ColumnScanEqualColumn.new
        ((GenericColumnScan.mk [0, 4, 7] none).seek 7)
        (GenericColumnScan.mk [1, 4, 8] none))).1 = none) := by
  refine ⟨?_, ?_, ?_, ?_, by decide, by decide, by decide⟩
  · intro s r hcv href
    unfold ColumnScanEqualColumn.next
    rw [hcv, href]
    simp only [Option.isSome_none, Bool.false_eq_true, if_false]
    rcases hv : (s.value_scan.seek r).current with _ | nv
    · simp
    · by_cases hnv : nv = r
      · subst hnv
        simp
      · simp [hnv]
  · intro s r hcv href
    rcases hv : (s.value_scan.seek r).current with _ | nv
    · have h1 : (ColumnScanEqualColumn.next s).2
          = { s with value_scan := s.value_scan.seek r, current_value := none } := by
        unfold ColumnScanEqualColumn.next
        rw [hcv, href]
        simp only [Option.isSome_none, Bool.false_eq_true, if_false]
        rw [hv]
      rw [h1]
      unfold ColumnScanEqualColumn.next
      dsimp only
      rw [href]
      simp only [Option.isSome_none, Bool.false_eq_true, if_false]
      rw [GenericColumnScan.seek_seek_current, hv]
    · by_cases hnv : nv = r
      · subst hnv
        have h1 : (ColumnScanEqualColumn.next s).2
            = { s with value_scan := s.value_scan.seek nv, current_value := some nv } := by
          unfold ColumnScanEqualColumn.next
          rw [hcv, href]
          simp only [Option.isSome_none, Bool.false_eq_true, if_false]
          rw [hv]
          simp
        rw [h1]
        unfold ColumnScanEqualColumn.next
        rfl
      · have h1 : (ColumnScanEqualColumn.next s).2
            = { s with value_scan := s.value_scan.seek r, current_value := none } := by
          unfold ColumnScanEqualColumn.next
          rw [hcv, href]
          simp only [Option.isSome_none, Bool.false_eq_true, if_false]
          rw [hv]
          simp [hnv]
        rw [h1]
        unfold ColumnScanEqualColumn.next
        dsimp only
        rw [href]
        simp only [Option.isSome_none, Bool.false_eq_true, if_false]
        rw [GenericColumnScan.seek_seek_current, hv]
        simp [hnv]
  · intro s r v href hrv
    unfold ColumnScanEqualColumn.seek
    rw [href]
    dsimp only
    rw [if_pos hrv]
  · intro s r v href hvr
    unfold ColumnScanEqualColumn.seek
    rw [href]
    dsimp only
    rw [if_neg (by omega)]

theorem equal_column_scan_behaviour_witness :
    (ColumnScanEqualColumn.next (ColumnScanEqualColumn.new
      ((GenericColumnScan.mk [0, 4, 7] none).seek 4)
      (GenericColumnScan.mk [1, 4, 8] none))).1
      = (if (((GenericColumnScan.mk [1, 4, 8] none).seek 4)).current = some 4
          then some 4 else none) :=
  equal_column_scan_behaviour.1
    (ColumnScanEqualColumn.new ((GenericColumnScan.mk [0, 4, 7] none).seek 4)
      (GenericColumnScan.mk [1, 4, 8] none)) 4 rfl (by decide)

/-- C2 counterexample: after the first `next` returns `Some 4` and the second
returns `None`, a third `next` re-seeks the value scan and returns `Some 4`
again, refuting the claim that every further `next` returns `None`. -/
theorem equal_column_scan_behaviour_counterexample :
    (ColumnScanEqualColumn.next (ColumnScanEqualColumn.next
      (ColumnScanEqualColumn.next (ColumnScanEqualColumn.new
        ((GenericColumnScan.mk [0, 4, 7] none).seek 4)
        (GenericColumnScan.mk [1, 4, 8] none))).2).2).1 = some 4
    ∧ (some (4 : Int)) ≠ none := by
  refine ⟨by decide, by decide⟩

/-- C8: `reset` on the prune column scan, and `pos` or `narrow` on the
prune, merge-join, and equality operator scans, all unconditionally abort
(the source bodies are `unimplemented!`, modelled as the fatal result). -/
theorem unsupported_operations_abort :
    (∀ s : ColumnScanPrune, ColumnScanPrune.reset s = .fatal)
    ∧ (∀ s : ColumnScanPrune, ColumnScanPrune.pos s = .fatal)
    ∧ (∀ (s : ColumnScanPrune) (i : Nat × Nat), ColumnScanPrune.narrow s i = .fatal)
    ∧ (∀ s : OrderedMergeJoin, OrderedMergeJoin.pos s = .fatal)
    ∧ (∀ (s : OrderedMergeJoin) (i : Nat × Nat), OrderedMergeJoin.narrow s i = .fatal)
    ∧ (∀ s : ColumnScanEqualColumn, ColumnScanEqualColumn.pos s = .fatal)
    ∧ (∀ (s : ColumnScanEqualColumn) (i : Nat × Nat),
        ColumnScanEqualColumn.narrow s i = .fatal) :=
  ⟨fun _ => rfl, fun _ => rfl, fun _ _ => rfl, fun _ => rfl, fun _ _ => rfl,
   fun _ => rfl, fun _ _ => rfl⟩

end EqualColumnClaims

section CsvImport

/-- Modelled from the spec: the `DataTypeName` enumeration of typed column
datatypes (its defining module is not part of this source snapshot);
`csv::read` matches on exactly these three variants. -/
inductive DataTypeName where
  | U64
  | Float
  | Double
  deriving Repr, DecidableEq

/-- Modelled from the spec: `PrefixedStringDictionary::add` returns the index
of the entry, appending the string when it is not yet present (the dictionary
module is not part of this source snapshot). -/
def dictAdd (dict : List String) (s : String) : Nat × List String :=
  match dict.findIdx? (fun x => x == s) with
  | some i => (i, dict)
  | none => (dict.length, dict ++ [s])

/-- `result[idx].as_mut().map(|vect| vect.push(&val))` in `csv::read`:
push a parsed value onto the column at `idx` when that slot holds a vector. -/
def pushAt (cols : List (Option (List Int))) (idx : Nat) (v : Int) :
    List (Option (List Int)) :=
  match cols.get? idx with
  | some (some l) => cols.set idx (some (l ++ [v]))
  | _ => cols

/-- The mutable state threaded through `csv::read`: the per-column vectors
(`result`, one `Option` slot per schema entry) and the string dictionary. -/
structure CsvState where
  cols : List (Option (List Int))
  dict : List String
  deriving Repr, DecidableEq

/-- Outcome of the per-row `try_for_each` over the cells of one record:
an out-of-bounds `datatypes[idx]` panic, an `Err(Error::RollBack(idx))`,
or success. -/
inductive CellsOut where
  | fatal
  | rollback (idx : Nat)
  | done
  deriving Repr, DecidableEq

/-- The body of `row.iter().enumerate().try_for_each(..)` in `csv::read`
(src/src/io/csv.rs): a typed cell is parsed, and a parse failure aborts the
row with `RollBack(idx)`; an untyped cell is added to the dictionary and its
index pushed; `datatypes[idx]` on an index beyond the schema panics. -/
def processCells (parse : DataTypeName → String → Option Int)
    (datatypes : List (Option DataTypeName)) :
    Nat → List String → CsvState → CellsOut × CsvState
  | _idx, [], st => (CellsOut.done, st)
  | idx, item :: rest, st =>
    match datatypes.get? idx with
    | none => (CellsOut.fatal, st)
    | some (some dt) =>
      match parse dt item with
      | some v =>
        processCells parse datatypes (idx + 1) rest
          { st with cols := pushAt st.cols idx v }
      | none => (CellsOut.rollback idx, st)
    | some none =>
      let r := dictAdd st.dict item
      processCells parse datatypes (idx + 1) rest
        { cols := pushAt st.cols idx (Int.ofNat r.1), dict := r.2 }

/-- The rollback loop of `csv::read`: `result.iter_mut().take(rollback)`,
popping the last pushed cell of each of the first `rollback` columns. -/
def rollbackCols (cols : List (Option (List Int))) (rb : Nat) :
    List (Option (List Int)) :=
  (cols.take rb).map (fun c => c.map List.dropLast) ++ cols.drop rb

/-- The `csv_reader.records().for_each(..)` loop of `csv::read` over the
successfully decoded records: a rolled-back row pops the cells it pushed,
other rows commit. -/
def readRecords (parse : DataTypeName → String → Option Int)
    (datatypes : List (Option DataTypeName)) :
    List (List String) → CsvState → Res CsvState
  | [], st => Res.ok st
  | row :: rest, st =>
    match processCells parse datatypes 0 row st with
    | (CellsOut.fatal, _) => Res.fatal
    | (CellsOut.rollback rb, st2) =>
      readRecords parse datatypes rest { st2 with cols := rollbackCols st2.cols rb }
    | (CellsOut.done, st2) => readRecords parse datatypes rest st2

/-- `csv::read` (src/src/io/csv.rs): one fresh vector per schema entry
(untyped entries default to a `U64` dictionary column, so every slot is
`Some`), then the record loop, then `Ok(result.into_iter().flatten())`. -/
def read (parse : DataTypeName → String → Option Int)
    (datatypes : List (Option DataTypeName))
    (records : List (List String)) (dict : List String) :
    Res (List (List Int) × List String) :=
  match readRecords parse datatypes records
      ⟨datatypes.map (fun _ => some []), dict⟩ with
  | Res.ok st => Res.ok (st.cols.filterMap id, st.dict)
  | Res.fatal => Res.fatal
  | Res.more => Res.more

/-- Nonempty strings of decimal digits. -/
def isDigits (l : List Char) : Bool := !l.isEmpty && l.all Char.isDigit

/-- Modelled from the spec: `DataTypeName::U64.parse`, i.e.
`str::parse::<u64>`, accepting nonempty digit strings. -/
def parseU64 (s : String) : Option Int :=
  if isDigits s.data then
    some (Int.ofNat (s.data.foldl (fun n c => n * 10 + (c.toNat - 48)) 0))
  else none

/-- Modelled from the spec: the concrete cell parser used in the scenarios;
only `U64` columns occur in them, so the float datatypes conservatively
reject. -/
def parseCell : DataTypeName → String → Option Int
  | DataTypeName.U64, s => parseU64 s
  | _, _ => none

/-- A row commits iff, from schema position `idx` on, every cell that falls
on a typed schema position parses; cells beyond the schema are not
constrained. -/
def rowOkFrom (parse : DataTypeName → String → Option Int)
    (datatypes : List (Option DataTypeName)) : Nat → List String → Bool
  | _, [] => true
  | idx, item :: rest =>
    match datatypes.get? idx with
    | some (some dt) => (parse dt item).isSome && rowOkFrom parse datatypes (idx + 1) rest
    | _ => rowOkFrom parse datatypes (idx + 1) rest

/-- Every column slot holds a vector (true of the initial state and preserved
by `csv::read`, since untyped slots also default to `Some`). -/
def allSomeCols (cols : List (Option (List Int))) : Prop :=
  ∀ j c, cols.get? j = some c → ∃ l, c = some l

/-- `new` extends `old` by exactly one pushed cell in each column of the
index interval `[lo, hi)` and agrees with `old` everywhere else. -/
def appendedBetween (old new : List (Option (List Int))) (lo hi : Nat) : Prop :=
  new.length = old.length ∧
  (∀ j, j < lo ∨ hi ≤ j → new.get? j = old.get? j) ∧
  (∀ j, lo ≤ j → j < hi →
    ∃ l v, old.get? j = some (some l) ∧ new.get? j = some (some (l ++ [v])))

theorem appendedBetween_rfl (cols : List (Option (List Int))) (lo : Nat) :
    appendedBetween cols cols lo lo :=
  ⟨rfl, fun _ _ => rfl, fun _ h1 h2 => absurd (h1.trans_lt h2) (lt_irrefl lo)⟩

theorem pushAt_eq (cols : List (Option (List Int))) (idx : Nat) (v : Int)
    (l : List Int) (h : cols.get? idx = some (some l)) :
    pushAt cols idx v = cols.set idx (some (l ++ [v])) := by
  unfold pushAt
  rw [h]

theorem appendedBetween_push (cols new : List (Option (List Int))) (idx hi : Nat)
    (l : List Int) (v : Int)
    (hidx : cols.get? idx = some (some l))
    (h : appendedBetween (cols.set idx (some (l ++ [v]))) new (idx + 1) hi)
    (hlt : idx < hi) :
    appendedBetween cols new idx hi := by
  obtain ⟨h1, h2, h3⟩ := h
  have hjlen : idx < cols.length := by
    obtain ⟨hlt', -⟩ := List.get?_eq_some.mp hidx
    exact hlt'
  refine ⟨by simpa using h1, ?_, ?_⟩
  · intro j hj
    rw [h2 j (by omega), List.get?_set_ne _ _ (by omega : idx ≠ j)]
  · intro j hj1 hj2
    by_cases hje : j = idx
    · subst hje
      refine ⟨l, v, hidx, ?_⟩
      rw [h2 j (Or.inl (by omega)), List.get?_set_eq, List.get?_eq_get hjlen]
      rfl
    · obtain ⟨l2, v2, ha, hb⟩ := h3 j (by omega) hj2
      rw [List.get?_set_ne _ _ (by omega : idx ≠ j)] at ha
      exact ⟨l2, v2, ha, hb⟩

theorem rollbackCols_restore (old new : List (Option (List Int))) (rb : Nat)
    (hrb : rb ≤ old.length)
    (h : appendedBetween old new 0 rb) :
    rollbackCols new rb = old := by
  obtain ⟨h1, h2, h3⟩ := h
  have hm : ((new.take rb).map fun c => c.map List.dropLast).length = rb := by
    simp only [List.length_map, List.length_take]
    omega
  apply List.ext
  intro j
  unfold rollbackCols
  by_cases hj : j < rb
  · rw [List.get?_append (by rw [hm]; exact hj), List.get?_map, List.get?_take hj]
    obtain ⟨l, v, ha, hb⟩ := h3 j (Nat.zero_le j) hj
    rw [hb, ha]
    simp
  · rw [List.get?_append_right (by rw [hm]; omega), hm, List.get?_drop]
    have hrw : rb + (j - rb) = j := by omega
    rw [hrw, h2 j (Or.inr (by omega))]

/-- Processing the cells of a row that exactly fills the schema never
panics: it either commits, pushing one cell in every remaining column, or
rolls back at the failing index `rb`, having pushed exactly one cell in
each column of `[idx, rb)`. -/
theorem processCells_spec (parse : DataTypeName → String → Option Int)
    (datatypes : List (Option DataTypeName)) (row : List String) :
    ∀ (idx : Nat) (st : CsvState),
      idx + row.length = datatypes.length →
      st.cols.length = datatypes.length →
      allSomeCols st.cols →
      (if rowOkFrom parse datatypes idx row then
        ∃ st2 : CsvState,
          processCells parse datatypes idx row st = (CellsOut.done, st2) ∧
          appendedBetween st.cols st2.cols idx datatypes.length
      else
        ∃ (rb : Nat) (st2 : CsvState),
          processCells parse datatypes idx row st = (CellsOut.rollback rb, st2) ∧
          idx ≤ rb ∧ rb < datatypes.length ∧
          appendedBetween st.cols st2.cols idx rb) := by
  induction row with
  | nil =>
    intro idx st hlen hcols hsome
    have hik : idx = datatypes.length := by simpa using hlen
    rw [if_pos (by rfl)]
    refine ⟨st, rfl, ?_⟩
    rw [← hik]
    exact appendedBetween_rfl st.cols idx
  | cons item rest ih =>
    intro idx st hlen hcols hsome
    have hidx : idx < datatypes.length := by
      simp only [List.length_cons] at hlen
      omega
    obtain ⟨dt0, hdt⟩ : ∃ d, datatypes.get? idx = some d :=
      ⟨_, List.get?_eq_get hidx⟩
    have hidx' : idx < st.cols.length := by omega
    obtain ⟨c0, hc0⟩ : ∃ c, st.cols.get? idx = some c :=
      ⟨_, List.get?_eq_get hidx'⟩
    obtain ⟨l0, hl0⟩ := hsome idx c0 hc0
    subst hl0
    rcases dt0 with _ | dt
    · -- untyped column: dictionary push, never fails
      have hrow : rowOkFrom parse datatypes idx (item :: rest)
          = rowOkFrom parse datatypes (idx + 1) rest := by
        simp only [rowOkFrom]
        rw [hdt]
      have hpush := pushAt_eq st.cols idx (Int.ofNat (dictAdd st.dict item).1) l0 hc0
      have hpc : processCells parse datatypes idx (item :: rest) st
          = processCells parse datatypes (idx + 1) rest
              ⟨st.cols.set idx (some (l0 ++ [Int.ofNat (dictAdd st.dict item).1])),
               (dictAdd st.dict item).2⟩ := by
        simp only [processCells]
        rw [hdt]
        dsimp only
        rw [hpush]
      have hlen' : (idx + 1) + rest.length = datatypes.length := by
        simp only [List.length_cons] at hlen
        omega
      have hcols' : (st.cols.set idx
          (some (l0 ++ [Int.ofNat (dictAdd st.dict item).1]))).length
          = datatypes.length := by
        simpa using hcols
      have hsome' : allSomeCols (st.cols.set idx
          (some (l0 ++ [Int.ofNat (dictAdd st.dict item).1]))) := by
        intro j c hc
        by_cases hje : idx = j
        · subst hje
          rw [List.get?_set_eq, List.get?_eq_get hidx'] at hc
          exact ⟨_, (Option.some_injective _ hc).symm⟩
        · rw [List.get?_set_ne _ _ hje] at hc
          exact hsome j c hc
      have ih' := ih (idx + 1)
        ⟨st.cols.set idx (some (l0 ++ [Int.ofNat (dictAdd st.dict item).1])),
         (dictAdd st.dict item).2⟩ hlen' hcols' hsome'
      rw [hrow, hpc]
      by_cases hok : rowOkFrom parse datatypes (idx + 1) rest = true
      · rw [if_pos hok]
        rw [if_pos hok] at ih'
        obtain ⟨st2, hh1, hh2⟩ := ih'
        exact ⟨st2, hh1, appendedBetween_push st.cols st2.cols idx datatypes.length
          l0 _ hc0 hh2 hidx⟩
      · rw [if_neg hok]
        rw [if_neg hok] at ih'
        obtain ⟨rb, st2, hh1, hh2, hh3, hh4⟩ := ih'
        exact ⟨rb, st2, hh1, by omega, hh3,
          appendedBetween_push st.cols st2.cols idx rb l0 _ hc0 hh4 (by omega)⟩
    · -- typed column
      rcases hp : parse dt item with _ | v
      · -- parse failure: roll back at this index
        have hrow : rowOkFrom parse datatypes idx (item :: rest) = false := by
          simp only [rowOkFrom]
          rw [hdt]
          dsimp only
          rw [hp]
          simp
        rw [hrow]
        rw [if_neg (by simp)]
        refine ⟨idx, st, ?_, le_refl idx, hidx, appendedBetween_rfl st.cols idx⟩
        simp only [processCells]
        rw [hdt]
        dsimp only
        rw [hp]
      · have hrow : rowOkFrom parse datatypes idx (item :: rest)
            = rowOkFrom parse datatypes (idx + 1) rest := by
          simp only [rowOkFrom]
          rw [hdt]
          dsimp only
          rw [hp]
          simp
        have hpush := pushAt_eq st.cols idx v l0 hc0
        have hpc : processCells parse datatypes idx (item :: rest) st
            = processCells parse datatypes (idx + 1) rest
                ⟨st.cols.set idx (some (l0 ++ [v])), st.dict⟩ := by
          simp only [processCells]
          rw [hdt]
          dsimp only
          rw [hp]
          dsimp only
          rw [hpush]
        have hlen' : (idx + 1) + rest.length = datatypes.length := by
          simp only [List.length_cons] at hlen
          omega
        have hcols' : (st.cols.set idx (some (l0 ++ [v]))).length
            = datatypes.length := by
          simpa using hcols
        have hsome' : allSomeCols (st.cols.set idx (some (l0 ++ [v]))) := by
          intro j c hc
          by_cases hje : idx = j
          · subst hje
            rw [List.get?_set_eq, List.get?_eq_get hidx'] at hc
            exact ⟨_, (Option.some_injective _ hc).symm⟩
          · rw [List.get?_set_ne _ _ hje] at hc
            exact hsome j c hc
        have ih' := ih (idx + 1)
          ⟨st.cols.set idx (some (l0 ++ [v])), st.dict⟩ hlen' hcols' hsome'
        rw [hrow, hpc]
        by_cases hok : rowOkFrom parse datatypes (idx + 1) rest = true
        · rw [if_pos hok]
          rw [if_pos hok] at ih'
          obtain ⟨st2, hh1, hh2⟩ := ih'
          exact ⟨st2, hh1, appendedBetween_push st.cols st2.cols idx datatypes.length
            l0 v hc0 hh2 hidx⟩
        · rw [if_neg hok]
          rw [if_neg hok] at ih'
          obtain ⟨rb, st2, hh1, hh2, hh3, hh4⟩ := ih'
          exact ⟨rb, st2, hh1, by omega, hh3,
            appendedBetween_push st.cols st2.cols idx rb l0 v hc0 hh4 (by omega)⟩


/-- A row that overruns the schema and whose typed cells all parse drives
`try_for_each` to index `datatypes.length`, where `datatypes[idx]` panics. -/
theorem processCells_fatal (parse : DataTypeName → String → Option Int)
    (datatypes : List (Option DataTypeName)) (row : List String) :
    ∀ (idx : Nat) (st : CsvState),
      idx ≤ datatypes.length → datatypes.length < idx + row.length →
      rowOkFrom parse datatypes idx row = true →
      (processCells parse datatypes idx row st).1 = CellsOut.fatal := by
  induction row with
  | nil =>
    intro idx st h1 h2 _
    simp only [List.length_nil, Nat.add_zero] at h2
    omega
  | cons item rest ih =>
    intro idx st h1 h2 hok
    by_cases hik : idx = datatypes.length
    · have hdt : datatypes.get? idx = none := by
        rw [List.get?_eq_none]
        omega
      simp only [processCells]
      rw [hdt]
    · have hidx : idx < datatypes.length := by omega
      obtain ⟨d0, hdt⟩ : ∃ d, datatypes.get? idx = some d :=
        ⟨_, List.get?_eq_get hidx⟩
      have h2' : datatypes.length < (idx + 1) + rest.length := by
        simp only [List.length_cons] at h2
        omega
      rcases d0 with _ | dt
      · have hok' : rowOkFrom parse datatypes (idx + 1) rest = true := by
          have hok2 := hok
          simp only [rowOkFrom] at hok2
          rw [hdt] at hok2
          exact hok2
        simp only [processCells]
        rw [hdt]
        dsimp only
        exact ih (idx + 1) _ (by omega) h2' hok'
      · have hok2 := hok
        simp only [rowOkFrom] at hok2
        rw [hdt] at hok2
        dsimp only at hok2
        rcases hp : parse dt item with _ | v
        · rw [hp] at hok2
          simp at hok2
        · rw [hp] at hok2
          simp only [Option.isSome_some, Bool.true_and] at hok2
          simp only [processCells]
          rw [hdt]
          dsimp only
          rw [hp]
          dsimp only
          exact ih (idx + 1) _ (by omega) h2' hok2

theorem readRecords_cons_ok (parse : DataTypeName → String → Option Int)
    (datatypes : List (Option DataTypeName)) (row : List String)
    (rest : List (List String)) (st : CsvState)
    (hrow : row.length = datatypes.length)
    (hcols : st.cols.length = datatypes.length)
    (hsome : allSomeCols st.cols) :
    ∃ st2 : CsvState,
      readRecords parse datatypes (row :: rest) st
        = readRecords parse datatypes rest st2 ∧
      st2.cols.length = datatypes.length ∧ allSomeCols st2.cols ∧
      ∀ j l, st.cols.get? j = some (some l) →
        ∃ l2, st2.cols.get? j = some (some l2) ∧
          l2.length = l.length
            + (if rowOkFrom parse datatypes 0 row then 1 else 0) := by
  have hspec := processCells_spec parse datatypes row 0 st (by simpa using hrow)
    hcols hsome
  by_cases hok : rowOkFrom parse datatypes 0 row = true
  · rw [if_pos hok] at hspec
    obtain ⟨st2, hpc, hap⟩ := hspec
    obtain ⟨h1, h2, h3⟩ := hap
    refine ⟨st2, ?_, by omega, ?_, ?_⟩
    · simp only [readRecords]
      rw [hpc]
    · intro j c hc
      obtain ⟨hj, -⟩ := List.get?_eq_some.mp hc
      have hjk : j < datatypes.length := by omega
      obtain ⟨l, v, ha, hb⟩ := h3 j (Nat.zero_le j) (by omega)
      rw [hc] at hb
      exact ⟨l ++ [v], Option.some_injective _ hb⟩
    · intro j l hl
      obtain ⟨hj, -⟩ := List.get?_eq_some.mp hl
      obtain ⟨l', v, ha, hb⟩ := h3 j (Nat.zero_le j) (by omega)
      rw [hl] at ha
      have hll : l = l' := by
        have := Option.some_injective _ ha
        exact Option.some_injective _ this
      subst hll
      exact ⟨l ++ [v], hb, by rw [if_pos hok]; simp⟩
  · rw [if_neg hok] at hspec
    obtain ⟨rb, st2, hpc, hle, hlt, hap⟩ := hspec
    have hres : rollbackCols st2.cols rb = st.cols :=
      rollbackCols_restore st.cols st2.cols rb (by omega) hap
    refine ⟨⟨st.cols, st2.dict⟩, ?_, hcols, hsome, ?_⟩
    · simp only [readRecords]
      rw [hpc]
      dsimp only
      rw [hres]
    · intro j l hl
      exact ⟨l, hl, by rw [if_neg hok]; omega⟩

theorem readRecords_ok (parse : DataTypeName → String → Option Int)
    (datatypes : List (Option DataTypeName)) (records : List (List String)) :
    ∀ st : CsvState,
      (∀ row ∈ records, row.length = datatypes.length) →
      st.cols.length = datatypes.length →
      allSomeCols st.cols →
      ∃ st2 : CsvState,
        readRecords parse datatypes records st = Res.ok st2 ∧
        st2.cols.length = datatypes.length ∧
        ∀ j l, st.cols.get? j = some (some l) →
          ∃ l2, st2.cols.get? j = some (some l2) ∧
            l2.length = l.length
              + (records.filter fun r => rowOkFrom parse datatypes 0 r).length := by
  induction records with
  | nil =>
    intro st _ h1 _
    exact ⟨st, rfl, h1, fun j l hl => ⟨l, hl, by simp⟩⟩
  | cons row rest ih =>
    intro st hall h1 h2
    obtain ⟨st', heq, hlen', hsome', hpt'⟩ := readRecords_cons_ok parse datatypes
      row rest st (hall row (by simp)) h1 h2
    obtain ⟨st2, heq2, hlen2, hpt2⟩ := ih st'
      (fun r hr => hall r (by simp [hr])) hlen' hsome'
    refine ⟨st2, by rw [heq, heq2], hlen2, ?_⟩
    intro j l hl
    obtain ⟨l1, ha1, hb1⟩ := hpt' j l hl
    obtain ⟨l2, ha2, hb2⟩ := hpt2 j l1 ha1
    refine ⟨l2, ha2, ?_⟩
    rw [hb2, hb1, List.filter_cons]
    by_cases hokr : rowOkFrom parse datatypes 0 row = true
    · rw [if_pos hokr, if_pos (by simpa using hokr)]
      simp only [List.length_cons]
      omega
    · rw [if_neg hokr, if_neg (by simpa using hokr)]
      omega

theorem readRecords_append (parse : DataTypeName → String → Option Int)
    (datatypes : List (Option DataTypeName)) (pre : List (List String)) :
    ∀ (rest : List (List String)) (st : CsvState),
      (∀ r ∈ pre, r.length = datatypes.length) →
      st.cols.length = datatypes.length →
      allSomeCols st.cols →
      ∃ st2 : CsvState,
        readRecords parse datatypes (pre ++ rest) st
          = readRecords parse datatypes rest st2 ∧
        st2.cols.length = datatypes.length ∧ allSomeCols st2.cols := by
  induction pre with
  | nil =>
    intro rest st _ h1 h2
    exact ⟨st, rfl, h1, h2⟩
  | cons row pre' ih =>
    intro rest st hall h1 h2
    obtain ⟨st', heq, hlen', hsome', -⟩ := readRecords_cons_ok parse datatypes
      row (pre' ++ rest) st (hall row (by simp)) h1 h2
    obtain ⟨st2, heq2, h3, h4⟩ := ih rest st'
      (fun r hr => hall r (by simp [hr])) hlen' hsome'
    exact ⟨st2, by rw [List.cons_append, heq, heq2], h3, h4⟩

theorem initCols_length (datatypes : List (Option DataTypeName)) :
    (datatypes.map fun _ => some ([] : List Int)).length = datatypes.length := by
  simp

theorem initCols_allSome (datatypes : List (Option DataTypeName)) :
    allSomeCols (datatypes.map fun _ => some ([] : List Int)) := by
  intro j c hc
  rw [List.get?_map] at hc
  rcases hd : datatypes.get? j with _ | d
  · rw [hd] at hc
    exact absurd hc (by simp)
  · rw [hd] at hc
    simp only [Option.map_some'] at hc
    exact ⟨[], (Option.some_injective _ hc).symm⟩

theorem initCols_get (datatypes : List (Option DataTypeName)) (j : Nat)
    (hj : j < datatypes.length) :
    (datatypes.map fun _ => some ([] : List Int)).get? j = some (some []) := by
  rw [List.get?_map, List.get?_eq_get hj]
  rfl

theorem filterMap_const_length (cnt : Nat) (cols : List (Option (List Int)))
    (h : ∀ j c, cols.get? j = some c → ∃ l, c = some l ∧ l.length = cnt) :
    (cols.filterMap id).length = cols.length ∧
    ∀ c ∈ cols.filterMap id, c.length = cnt := by
  induction cols with
  | nil => exact ⟨rfl, by simp⟩
  | cons c rest ih =>
    obtain ⟨l, hl, hlen⟩ := h 0 c rfl
    subst hl
    have ih' := ih (fun j d hd => h (j + 1) d hd)
    constructor
    · simp [List.filterMap_cons, ih'.1]
    · intro d hd
      simp only [List.filterMap_cons, id] at hd
      rcases List.mem_cons.mp hd with rfl | hd2
      · exact hlen
      · exact ih'.2 d hd2


/-- C5 (corrected): for every schema, parse function and input batch whose
rows each have exactly as many fields as the schema, `read` returns `Ok`,
produces one output column per schema entry, and every output column's
length equals the number of committed rows — a row with a failing typed
cell contributes no cells to any column, a committed row exactly one cell
to each (row atomicity); concretely, the S6-style batch whose second row
fails in its third column yields the columns [[1,3],[0,0],[7,9]]. -/
theorem csv_row_atomicity
    (parse : DataTypeName → String → Option Int)
    (datatypes : List (Option DataTypeName))
    (records : List (List String)) (dict : List String)
    (hk : ∀ row ∈ records, row.length = datatypes.length) :
    (∃ (cols : List (List Int)) (outDict : List String),
      read parse datatypes records dict = Res.ok (cols, outDict) ∧
      cols.length = datatypes.length ∧
      ∀ c ∈ cols, c.length
        = (records.filter fun r => rowOkFrom parse datatypes 0 r).length)
    ∧ read parseCell [some DataTypeName.U64, none, some DataTypeName.U64]
        [["1", "x", "7"], ["2", "y", "oops"], ["3", "x", "9"]] []
        = Res.ok ([[1, 3], [0, 0], [7, 9]], ["x", "y"]) := by
  constructor
  · obtain ⟨st2, hrun, hlen2, hpt⟩ := readRecords_ok parse datatypes records
      ⟨datatypes.map fun _ => some [], dict⟩ hk (initCols_length datatypes)
      (initCols_allSome datatypes)
    have hread : read parse datatypes records dict
        = Res.ok (st2.cols.filterMap id, st2.dict) := by
      unfold read
      rw [hrun]
    have hall : ∀ j c, st2.cols.get? j = some c →
        ∃ l, c = some l ∧ l.length
          = (records.filter fun r => rowOkFrom parse datatypes 0 r).length := by
      intro j c hc
      obtain ⟨hj, -⟩ := List.get?_eq_some.mp hc
      have hjk : j < datatypes.length := by omega
      obtain ⟨l2, hl2, hlen'⟩ := hpt j [] (initCols_get datatypes j hjk)
      rw [hc] at hl2
      exact ⟨l2, Option.some_injective _ hl2, by simpa using hlen'⟩
    obtain ⟨hfl, hfm⟩ := filterMap_const_length _ st2.cols hall
    exact ⟨_, _, hread, by rw [hfl, hlen2], hfm⟩
  · decide

/-- C5 witness: the three-row batch over the schema [U64, untyped, U64]
loads with all three columns of length 2. -/
theorem csv_row_atomicity_witness :
    ∃ (cols : List (List Int)) (outDict : List String),
      read parseCell [some DataTypeName.U64, none, some DataTypeName.U64]
        [["1", "x", "7"], ["2", "y", "oops"], ["3", "x", "9"]] []
        = Res.ok (cols, outDict) ∧
      cols.length = 3 ∧ ∀ c ∈ cols, c.length = 2 := by
  obtain ⟨⟨cols, outDict, h1, h2, h3⟩, -⟩ := csv_row_atomicity parseCell
    [some DataTypeName.U64, none, some DataTypeName.U64]
    [["1", "x", "7"], ["2", "y", "oops"], ["3", "x", "9"]] [] (by decide)
  exact ⟨cols, outDict, h1, by simpa using h2,
    fun c hc => (h3 c hc).trans (by decide)⟩

/-- C5 counterexample: with a two-column schema, the batch [["1"]] — a
committed row with fewer fields than the schema — returns Ok with column
lengths 1 and 0, refuting the unconditional claim that every committed row
contributes one cell to each of the k output columns. -/
theorem csv_row_atomicity_counterexample :
    read parseCell [some DataTypeName.U64, some DataTypeName.U64] [["1"]] []
      = Res.ok ([[1], []], [])
    ∧ ([(1 : Int)].length ≠ ([] : List Int).length) :=
  ⟨by decide, by decide⟩

/-- C10 (corrected): a record with more fields than the schema panics
the importer — provided its cells on typed schema positions all parse, so that
`try_for_each` actually reaches the out-of-bounds `datatypes[idx]`; if an
earlier typed cell fails to parse the row is merely rolled back. -/
theorem csv_long_record_fatal
    (parse : DataTypeName → String → Option Int)
    (datatypes : List (Option DataTypeName))
    (before after : List (List String)) (row : List String) (dict : List String)
    (hbefore : ∀ r ∈ before, r.length = datatypes.length)
    (hlong : datatypes.length < row.length)
    (hok : rowOkFrom parse datatypes 0 row = true) :
    read parse datatypes (before ++ row :: after) dict = Res.fatal := by
  obtain ⟨st2, heq, hlen2, hsome2⟩ := readRecords_append parse datatypes before
    (row :: after) ⟨datatypes.map fun _ => some [], dict⟩ hbefore
    (initCols_length datatypes) (initCols_allSome datatypes)
  have hfat := processCells_fatal parse datatypes row 0 st2 (Nat.zero_le _)
    (by omega) hok
  rcases hpc : processCells parse datatypes 0 row st2 with ⟨out, st3⟩
  rw [hpc] at hfat
  dsimp only at hfat
  subst hfat
  unfold read
  rw [heq]
  simp only [readRecords]
  rw [hpc]

/-- C10 witness: a two-field record against a one-column `U64` schema whose
first cell parses panics the import. -/
theorem csv_long_record_fatal_witness :
    read parseCell [some DataTypeName.U64] [["1", "2"]] [] = Res.fatal :=
  csv_long_record_fatal parseCell [some DataTypeName.U64] [] [] ["1", "2"] []
    (by simp) (by decide) (by decide)

/-- C10 counterexample: the two-field record ["x", "y"] against a
one-column `U64` schema fails to parse at index 0, is rolled back, and
`read` returns Ok — refuting the claim that any input containing a record
with more fields than the schema panics. -/
theorem csv_long_record_fatal_counterexample :
    read parseCell [some DataTypeName.U64] [["x", "y"]] [] = Res.ok ([[]], [])
    ∧ Res.ok ([([] : List Int)], ([] : List String)) ≠
        (Res.fatal : Res (List (List Int) × List String)) :=
  ⟨by decide, by decide⟩

end CsvImport

section RdfImport

/-- Modelled from the spec: the logical `Term` values produced by the RDF
conversions in rdf_triples.rs (the defining `nemo::model` term module is not
part of this source snapshot); only the constructors reachable from those
conversions are included. -/
inductive Term where
  | constant (s : String)
  | stringLiteral (s : String)
  | languageString (v tag : String)
  | datatypeValue (v dt : String)
  deriving Repr, DecidableEq

/-- Modelled from the spec: `rio_api::model::Literal`. -/
inductive RioLiteral where
  | simple (v : String)
  | languageTagged (v lang : String)
  | typed (v dt : String)
  deriving Repr, DecidableEq

/-- Modelled from the spec: `rio_api::model::Subject`; `star` stands for a
nested RDF-star triple. -/
inductive RioSubject where
  | namedNode (iri : String)
  | blankNode (id : String)
  | star
  deriving Repr, DecidableEq

/-- Modelled from the spec: `rio_api::model::Term`. -/
inductive RioTerm where
  | namedNode (iri : String)
  | blankNode (id : String)
  | literal (l : RioLiteral)
  | star
  deriving Repr, DecidableEq

/-- Modelled from the spec: `rio_api::model::Triple`; a predicate is always
a named node. -/
structure RioTriple where
  subj : RioSubject
  pred : String
  obj : RioTerm
  deriving Repr, DecidableEq

/-- `impl From<NamedNode> for Term` in rdf_triples.rs: the IRI becomes a
constant. -/
def namedNodeToTerm (iri : String) : Term := Term.constant iri

/-- `impl From<BlankNode> for Term` in rdf_triples.rs: `to_string` prints
the node as `_:id`. -/
def blankNodeToTerm (id : String) : Term := Term.constant ("_:" ++ id)

/-- The xsd:integer datatype IRI. -/
def xsdInteger : String := "http://www.w3.org/2001/XMLSchema#integer"

/-- The xsd:decimal datatype IRI. -/
def xsdDecimal : String := "http://www.w3.org/2001/XMLSchema#decimal"

/-- Nonempty strings of decimal digits (for literal lexical spaces). -/
def isDigitList (l : List Char) : Bool := !l.isEmpty && l.all Char.isDigit

/-- Modelled from the spec: the lexical space of xsd:integer — an optionally
signed nonempty digit string. -/
def isIntegerLex (s : String) : Bool :=
  match s.data with
  | '+' :: rest => isDigitList rest
  | '-' :: rest => isDigitList rest
  | l => isDigitList l

/-- Modelled from the spec: the lexical space of xsd:decimal — an optionally
signed digit string with an optional point and fractional digits, containing
at least one digit (so "123.45a" is invalid). -/
def isDecimalLex (s : String) : Bool :=
  let l := match s.data with
    | '+' :: rest => rest
    | '-' :: rest => rest
    | l => l
  match l.dropWhile Char.isDigit with
  | [] => !(l.takeWhile Char.isDigit).isEmpty
  | '.' :: frac =>
    frac.all Char.isDigit
      && (!(l.takeWhile Char.isDigit).isEmpty || !frac.isEmpty)
  | _ => false

/-- Modelled from the spec: `Term::try_from(RdfLiteral::DatatypeValue ..)` —
xsd:integer and xsd:decimal literals are validated against their lexical
space and an invalid one is an `InvalidRdfLiteral` error; other datatypes
are kept unchecked. -/
def datatypeValueToTerm (v dt : String) : Option Term :=
  if dt = xsdInteger then
    if isIntegerLex v then some (Term.datatypeValue v dt) else none
  else if dt = xsdDecimal then
    if isDecimalLex v then some (Term.datatypeValue v dt) else none
  else some (Term.datatypeValue v dt)

/-- Modelled from the spec: `Term::try_from(RdfLiteral::LanguageString ..)`
always succeeds. -/
def languageStringToTerm (v tag : String) : Option Term :=
  some (Term.languageString v tag)

/-- `impl TryFrom<rio_api::model::Literal> for Term` in rdf_triples.rs. -/
def literalToTerm : RioLiteral → Option Term
  | RioLiteral.simple v => some (Term.stringLiteral v)
  | RioLiteral.languageTagged v lang => languageStringToTerm v lang
  | RioLiteral.typed v dt => datatypeValueToTerm v dt

/-- `impl TryFrom<Subject> for Term` in rdf_triples.rs; an RDF-star subject
is a `ReadingError::RdfStarUnsupported`. -/
def subjectToTerm : RioSubject → Option Term
  | RioSubject.namedNode iri => some (namedNodeToTerm iri)
  | RioSubject.blankNode id => some (blankNodeToTerm id)
  | RioSubject.star => none

/-- `impl TryFrom<rio_api::model::Term> for Term` in rdf_triples.rs. -/
def rioTermToTerm : RioTerm → Option Term
  | RioTerm.namedNode iri => some (namedNodeToTerm iri)
  | RioTerm.blankNode id => some (blankNodeToTerm id)
  | RioTerm.literal l => literalToTerm l
  | RioTerm.star => none

/-- Modelled from the spec: a successful `ColumnBuilderProxy::add` appends
the value to builder `i`. -/
def pushBuilder (bs : List (List Term)) (i : Nat) (t : Term) : List (List Term) :=
  match bs.get? i with
  | some l => bs.set i (l ++ [t])
  | none => bs

/-- Modelled from the spec: `ColumnBuilderProxy::forget` drops the value
last added to builder `i`. -/
def forgetBuilder (bs : List (List Term)) (i : Nat) : List (List Term) :=
  match bs.get? i with
  | some l => bs.set i l.dropLast
  | none => bs

/-- The `on_triple` closure of `read_with_buf_reader` in rdf_triples.rs:
subject, predicate and object are converted before any add (a conversion
error propagates with nothing appended); a failed later add forgets the
earlier adds. `addOk` abstracts which adds the logical builders accept; the
Bool records whether the triple was committed. -/
def onTriple (addOk : Nat → Term → Bool) (t : RioTriple)
    (bs : List (List Term)) : Bool × List (List Term) :=
  match subjectToTerm t.subj with
  | none => (false, bs)
  | some s =>
    let p := namedNodeToTerm t.pred
    match rioTermToTerm t.obj with
    | none => (false, bs)
    | some o =>
      if addOk 0 s then
        let bs0 := pushBuilder bs 0 s
        if addOk 1 p then
          let bs1 := pushBuilder bs0 1 p
          if addOk 2 o then
            (true, pushBuilder bs1 2 o)
          else
            (false, forgetBuilder (forgetBuilder bs1 0) 1)
        else
          (false, forgetBuilder bs0 0)
      else (false, bs)

/-- Modelled from the spec: the outcome of one `parser.parse_step` call —
a parse error (also produced when `on_triple` rejects the triple) or a
parsed triple handed to `on_triple`. -/
inductive ParseStep where
  | err
  | triple (t : RioTriple)
  deriving Repr, DecidableEq

/-- The `while !parser.is_end()` loop of `read_with_buf_reader`: a failing
`parse_step` is logged and skipped, a triple is handed to `on_triple`. -/
def readSteps (addOk : Nat → Term → Bool) :
    List ParseStep → List (List Term) → List (List Term)
  | [], bs => bs
  | ParseStep.err :: rest, bs => readSteps addOk rest bs
  | ParseStep.triple t :: rest, bs => readSteps addOk rest (onTriple addOk t bs).2

/-- `RDFTriplesReader::read_with_buf_reader` in rdf_triples.rs: asserts
exactly three builders (subject, predicate, object), runs the parse loop,
and returns Ok. -/
def read_with_buf_reader (addOk : Nat → Term → Bool)
    (builders : List (List Term)) (steps : List ParseStep) :
    Res (List (List Term)) :=
  if builders.length = 3 then Res.ok (readSteps addOk steps builders)
  else Res.fatal

/-- A triple commits iff subject and object convert and all three adds are
accepted. -/
def tripleCommits (addOk : Nat → Term → Bool) (t : RioTriple) : Bool :=
  match subjectToTerm t.subj with
  | none => false
  | some s =>
    match rioTermToTerm t.obj with
    | none => false
    | some o => addOk 0 s && addOk 1 (namedNodeToTerm t.pred) && addOk 2 o

/-- A parse step contributes a row iff it is a committing triple. -/
def stepCommits (addOk : Nat → Term → Bool) : ParseStep → Bool
  | ParseStep.err => false
  | ParseStep.triple t => tripleCommits addOk t

/-- The IRI used throughout the S5 rollback input. -/
def exOrg : String := "http://example.org/"

/-- The https variant closing the S5 rollback input. -/
def exOrgS : String := "https://example.org/"

/-- A triple of three named nodes. -/
def nnTriple (s p o : String) : RioTriple :=
  ⟨RioSubject.namedNode s, p, RioTerm.namedNode o⟩

/-- Modelled from the spec: the S5 nine-line N-Triples input as parse
steps — line 1 well-formed; lines 2 to 4 malformed (a bare `malformed`
token, or a missing final dot) and rejected by the parser; lines 5 to 8
typed literals, of which "123.45" against xsd:integer and "123.45a"
against xsd:decimal are invalid; line 9 well-formed. -/
def steps9 : List ParseStep :=
  [ParseStep.triple (nnTriple exOrg exOrg exOrg),
   ParseStep.err,
   ParseStep.err,
   ParseStep.err,
   ParseStep.triple ⟨RioSubject.namedNode exOrg, exOrg,
     RioTerm.literal (RioLiteral.typed "123" xsdInteger)⟩,
   ParseStep.triple ⟨RioSubject.namedNode exOrg, exOrg,
     RioTerm.literal (RioLiteral.typed "123.45" xsdInteger)⟩,
   ParseStep.triple ⟨RioSubject.namedNode exOrg, exOrg,
     RioTerm.literal (RioLiteral.typed "123.45" xsdDecimal)⟩,
   ParseStep.triple ⟨RioSubject.namedNode exOrg, exOrg,
     RioTerm.literal (RioLiteral.typed "123.45a" xsdDecimal)⟩,
   ParseStep.triple (nnTriple exOrgS exOrgS exOrgS)]

/-- The subject (and predicate) column loaded from the S5 input. -/
def subjCol9 : List Term :=
  [Term.constant exOrg, Term.constant exOrg, Term.constant exOrg,
   Term.constant exOrgS]

/-- The object column loaded from the S5 input. -/
def objCol9 : List Term :=
  [Term.constant exOrg, Term.datatypeValue "123" xsdInteger,
   Term.datatypeValue "123.45" xsdDecimal, Term.constant exOrgS]

/-- `on_triple` keeps the three builders in lockstep: a committing triple
lengthens each of the three by one; any failure — conversion, or a rejected
add followed by the forget rollback — leaves all three lengths unchanged. -/
theorem onTriple_lengths (addOk : Nat → Term → Bool) (t : RioTriple)
    (b0 b1 b2 : List Term) :
    ∃ c0 c1 c2 : List Term,
      (onTriple addOk t [b0, b1, b2]).2 = [c0, c1, c2] ∧
      c0.length = b0.length + (if tripleCommits addOk t then 1 else 0) ∧
      c1.length = b1.length + (if tripleCommits addOk t then 1 else 0) ∧
      c2.length = b2.length + (if tripleCommits addOk t then 1 else 0) := by
  unfold onTriple tripleCommits
  rcases hs : subjectToTerm t.subj with _ | s
  · exact ⟨b0, b1, b2, rfl, by simp, by simp, by simp⟩
  · rcases ho : rioTermToTerm t.obj with _ | o
    · exact ⟨b0, b1, b2, rfl, by simp, by simp, by simp⟩
    · dsimp only
      by_cases h0 : addOk 0 s = true
      · rw [if_pos h0]
        by_cases h1 : addOk 1 (namedNodeToTerm t.pred) = true
        · rw [if_pos h1]
          by_cases h2 : addOk 2 o = true
          · rw [if_pos h2]
            refine ⟨b0 ++ [s], b1 ++ [namedNodeToTerm t.pred], b2 ++ [o], ?_,
              ?_, ?_, ?_⟩
            · simp [pushBuilder]
            · simp [h0, h1, h2]
            · simp [h0, h1, h2]
            · simp [h0, h1, h2]
          · rw [if_neg h2]
            refine ⟨b0, b1, b2, ?_, ?_, ?_, ?_⟩
            · simp [pushBuilder, forgetBuilder]
            · simp [h0, h1, h2]
            · simp [h0, h1, h2]
            · simp [h0, h1, h2]
        · rw [if_neg h1]
          refine ⟨b0, b1, b2, ?_, ?_, ?_, ?_⟩
          · simp [pushBuilder, forgetBuilder]
          · simp [h0, h1]
          · simp [h0, h1]
          · simp [h0, h1]
      · rw [if_neg h0]
        exact ⟨b0, b1, b2, rfl, by simp [h0], by simp [h0], by simp [h0]⟩

/-- The parse loop keeps the three builders in lockstep, each growing by
exactly the number of committed triples. -/
theorem readSteps_lengths (addOk : Nat → Term → Bool) (steps : List ParseStep) :
    ∀ b0 b1 b2 : List Term,
      ∃ c0 c1 c2 : List Term,
        readSteps addOk steps [b0, b1, b2] = [c0, c1, c2] ∧
        c0.length = b0.length + (steps.filter (stepCommits addOk)).length ∧
        c1.length = b1.length + (steps.filter (stepCommits addOk)).length ∧
        c2.length = b2.length + (steps.filter (stepCommits addOk)).length := by
  induction steps with
  | nil =>
    intro b0 b1 b2
    exact ⟨b0, b1, b2, rfl, by simp, by simp, by simp⟩
  | cons step rest ih =>
    intro b0 b1 b2
    rcases step with _ | t
    · obtain ⟨c0, c1, c2, h, h0, h1, h2⟩ := ih b0 b1 b2
      refine ⟨c0, c1, c2, h, ?_, ?_, ?_⟩ <;>
        simp [List.filter_cons, stepCommits, h0, h1, h2]
    · obtain ⟨m0, m1, m2, hm, hm0, hm1, hm2⟩ := onTriple_lengths addOk t b0 b1 b2
      obtain ⟨c0, c1, c2, h, h0, h1, h2⟩ := ih m0 m1 m2
      have hstep : readSteps addOk (ParseStep.triple t :: rest) [b0, b1, b2]
          = [c0, c1, c2] := by
        simp only [readSteps]
        rw [hm]
        exact h
      by_cases hc : tripleCommits addOk t = true
      · rw [if_pos hc] at hm0 hm1 hm2
        refine ⟨c0, c1, c2, hstep, ?_, ?_, ?_⟩ <;>
          · simp [List.filter_cons, stepCommits, hc]
            omega
      · rw [if_neg hc] at hm0 hm1 hm2
        refine ⟨c0, c1, c2, hstep, ?_, ?_, ?_⟩ <;>
          · simp [List.filter_cons, stepCommits, hc]
            omega

/-- C6: RDF ingestion skips malformed triples and rolls back partially
appended cells — for every add discipline and parse-step sequence,
`read_with_buf_reader` returns Ok and the three builder columns end with
equal lengths, namely the number of committed triples; on the S5 nine-line
input all three columns have length 4, the number of successfully parsed
triples. -/
theorem rdf_rollback_lengths :
    (∀ (addOk : Nat → Term → Bool) (steps : List ParseStep),
      ∃ c0 c1 c2 : List Term,
        read_with_buf_reader addOk [[], [], []] steps = Res.ok [c0, c1, c2] ∧
        c0.length = (steps.filter (stepCommits addOk)).length ∧
        c1.length = (steps.filter (stepCommits addOk)).length ∧
        c2.length = (steps.filter (stepCommits addOk)).length)
    ∧ read_with_buf_reader (fun _ _ => true) [[], [], []] steps9
        = Res.ok [subjCol9, subjCol9, objCol9]
    ∧ (steps9.filter (stepCommits fun _ _ => true)).length = 4
    ∧ subjCol9.length = 4 ∧ objCol9.length = 4 := by
  refine ⟨?_, by decide, by decide, by decide, by decide⟩
  intro addOk steps
  obtain ⟨c0, c1, c2, h, h0, h1, h2⟩ := readSteps_lengths addOk steps [] [] []
  refine ⟨c0, c1, c2, ?_, by simpa using h0, by simpa using h1, by simpa using h2⟩
  unfold read_with_buf_reader
  rw [if_pos (by rfl)]
  rw [h]

end RdfImport

end NemoVerify
